import Mathlib

/-!
Verification of the `teleprompta` JSON-form core: a shallow embedding of
`packages/json-form-lib/src/SchemaParser.ts` (schema validation, dependency
resolution with DFS cycle detection, and the zod-based validation-schema
compiler), the field-type registry and renderer dispatch of `FieldRenderer`,
and the form-controller state machine of `apps/mobile/components/Form.tsx`
(values / errors / touched / submitting / valid / dirty / hasSubmitted and
the external event callbacks).

JavaScript runtime values that the embedded code inspects are modelled by
`Value` (undefined, null, strings, numbers, booleans, dates, arrays,
objects); JavaScript objects used as string-keyed dictionaries are modelled
by insertion-ordered association lists with the same set/get/delete
semantics as JS objects and `Map`.
-/

namespace Teleprompta

/-- A JavaScript runtime value, as far as the embedded code inspects one.
Numbers are modelled as integers (no claim under verification exercises
fractional or NaN values). `record` is an insertion-ordered object. -/
inductive Value where
  | absent
  | vnull
  | str (s : String)
  | num (n : Int)
  | bool (b : Bool)
  | date
  | list (xs : List Value)
  | record (fields : List (String × Value))

/-- JavaScript truthiness test restricted to `Value`: `undefined`, `null`,
`""`, `0` and `false` are falsy; every other value (including empty arrays
and objects) is truthy. -/
def Value.falsy : Value → Bool
  | .absent => true
  | .vnull => true
  | .str s => s = ""
  | .num n => n = 0
  | .bool b => b = false
  | .date => false
  | .list _ => false
  | .record _ => false

mutual

/-- Structural equality on `Value` (used to model the
`JSON.stringify(a) === JSON.stringify(b)` comparisons of the form
controller, which are key-order-sensitive like this one). -/
def Value.beq : Value → Value → Bool
  | .absent, .absent => true
  | .vnull, .vnull => true
  | .str a, .str b => a = b
  | .num a, .num b => a = b
  | .bool a, .bool b => a = b
  | .date, .date => true
  | .list xs, .list ys => Value.beqList xs ys
  | .record xs, .record ys => Value.beqRecord xs ys
  | _, _ => false

/-- Elementwise `Value.beq` on arrays. -/
def Value.beqList : List Value → List Value → Bool
  | [], [] => true
  | x :: xs, y :: ys => Value.beq x y && Value.beqList xs ys
  | _, _ => false

/-- Entrywise `Value.beq` on objects (keys and order included). -/
def Value.beqRecord : List (String × Value) → List (String × Value) → Bool
  | [], [] => true
  | (k, v) :: xs, (k', v') :: ys =>
      k = k' && Value.beq v v' && Value.beqRecord xs ys
  | _, _ => false

end

instance : BEq Value := ⟨Value.beq⟩

/-! ### Insertion-ordered string-keyed maps (JS objects / `Map`s) -/

/-- `m[k] = v` on a JS object / `Map.set`: replace in place if the key is
present, otherwise append at the end. -/
def mapSet {α : Type} (m : List (String × α)) (k : String) (v : α) :
    List (String × α) :=
  if m.any (fun p => p.1 = k) then
    m.map (fun p => if p.1 = k then (k, v) else p)
  else m ++ [(k, v)]

/-- `m[k]` / `Map.get`: the value at the first (unique) occurrence of `k`. -/
def mapGet? {α : Type} (m : List (String × α)) (k : String) : Option α :=
  (m.find? (fun p => p.1 = k)).map (fun p => p.2)

/-- `delete m[k]` / `Map.delete`, keeping the order of the other entries. -/
def mapRemove {α : Type} (m : List (String × α)) (k : String) :
    List (String × α) :=
  m.filter (fun p => p.1 ≠ k)

/-- The keys of a JS object in insertion order (`Object.keys`). -/
def mapKeys {α : Type} (m : List (String × α)) : List String :=
  m.map (fun p => p.1)

/-! ### Schema data model (from `types.ts`)

Only the attributes that the embedded functions inspect are carried.
A missing / falsy `id`, `label` or `type` string is modelled as `""`
(the code only ever tests them for truthiness or equality). -/

/-- `ConditionalRule.operator` from `types.ts`. -/
inductive Operator where
  | equals | not_equals | contains | not_contains
  | greater_than | less_than | greater_than_or_equal | less_than_or_equal
  | in_op | not_in | is_empty | is_not_empty | custom
deriving DecidableEq, Repr

/-- `ConditionalRule`: `operator = none` models a missing operator;
`hasCustomRule` models the presence of the `customRule` function. -/
structure ConditionalRule where
  field : String
  operator : Option Operator := none
  value : Option Value := none
  hasCustomRule : Bool := false

/-- `ConditionalConfig`: the five independent rule lists.  (`show` is a Lean
keyword, hence the trailing underscore; the JS member is `show`.) -/
structure ConditionalConfig where
  show_ : Option (List ConditionalRule) := none
  hide : Option (List ConditionalRule) := none
  enable : Option (List ConditionalRule) := none
  disable : Option (List ConditionalRule) := none
  require_ : Option (List ConditionalRule) := none

/-- A zod schema as far as `SchemaParser` builds and inspects one.
`zString checks` is `z.string()` carrying its accumulated `.min(n, msg)`
checks (zod keeps a `ZodString` a `ZodString` under `.min`, which is what
the `instanceof z.ZodString` test in `buildFieldValidationSchema` sees). -/
inductive ZodSchema where
  | zString (minChecks : List (Nat × String))
  | zNumber
  | zBoolean
  | zDate
  | zArray (elem : ZodSchema)
  | zRecord (elem : ZodSchema)
  | zAny
  | zOptional (inner : ZodSchema)
deriving DecidableEq, Repr

/-- Whether a zod schema accepts a value (`schema.safeParse(v).success`). -/
def ZodSchema.accepts : ZodSchema → Value → Bool
  | .zString checks, .str s => checks.all (fun c => c.1 ≤ s.length)
  | .zString _, _ => false
  | .zNumber, .num _ => true
  | .zNumber, _ => false
  | .zBoolean, .bool _ => true
  | .zBoolean, _ => false
  | .zDate, .date => true
  | .zDate, _ => false
  | .zArray e, .list xs => xs.all (fun x => e.accepts x)
  | .zArray _, _ => false
  | .zRecord e, .record fs => fs.all (fun p => e.accepts p.2)
  | .zRecord _, _ => false
  | .zAny, _ => true
  | .zOptional _, .absent => true
  | .zOptional s, v => s.accepts v

/-- A `SelectOption` (static options entry); its members are never
inspected by the embedded functions. -/
structure SelectOption where
  label : String := ""
  value : Value := .absent

/-- `DynamicOptionsConfig`, of which only `dependencies` is inspected. -/
structure DynamicOptionsConfig where
  dependencies : Option (List String) := none
deriving DecidableEq

/-- `field.options`: either a static `SelectOption[]` array or a dynamic
options configuration object. -/
inductive FieldOptions where
  | staticList (opts : List SelectOption)
  | dynamic (cfg : DynamicOptionsConfig)

/-- `FieldValidation`, of which only `schema` is inspected by the parser. -/
structure FieldValidation where
  schema : Option ZodSchema := none
deriving DecidableEq

/-- A form field.  `type_` is the open string tag (`FieldType` is a string
union in `types.ts`).  `hasItemSchema` models the presence of an `array`
field's `itemSchema`; `objectFieldsIsArray` models an `object` field's
`fields` member (`none` = absent, `some b` = present with `b` = it is an
array) — the validator only tests presence and array-ness of these two. -/
structure Field where
  id : String
  type_ : String
  label : String
  required : Bool := false
  disabled : Bool := false
  defaultValue : Option Value := none
  validation : Option FieldValidation := none
  conditional : Option ConditionalConfig := none
  options : Option FieldOptions := none
  min : Option Int := none
  max : Option Int := none
  hasItemSchema : Bool := false
  objectFieldsIsArray : Option Bool := none

/-- `GlobalValidation`, of which only `schema` is inspected. -/
structure GlobalValidation where
  schema : Option ZodSchema := none
deriving DecidableEq

/-- `FormSchema`.  `fields = none` models a `fields` member that is not an
array (missing or of another shape): the validator's only test on the raw
member is `Array.isArray(schema.fields)`. -/
structure FormSchema where
  id : String
  title : Option String := none
  description : Option String := none
  fields : Option (List Field) := none
  validation : Option GlobalValidation := none

/-- `SchemaValidationResult` from `types.ts`. -/
structure SchemaValidationResult where
  isValid : Bool
  errors : List String
  warnings : List String
deriving DecidableEq, Repr

/-! ### `SchemaParser.validate` -/

/-- The errors contributed by `validateRuleArray` (inside
`SchemaParser.validateConditionalRules`) for one rule at index `i`. -/
def ruleErrors (availableFieldIds : List String) (ruleName : String)
    (i : Nat) (rule : ConditionalRule) : List String :=
  (if rule.field = "" then [ruleName ++ "[" ++ toString i ++ "].field is required"]
   else if availableFieldIds.contains rule.field then []
   else [ruleName ++ "[" ++ toString i ++ "].field references unknown field: "
          ++ rule.field]) ++
  (if rule.operator.isNone then
     [ruleName ++ "[" ++ toString i ++ "].operator is required"]
   else []) ++
  (if rule.operator = some .custom && !rule.hasCustomRule then
     [ruleName ++ "[" ++ toString i
        ++ "] with custom operator requires customRule function"]
   else [])

/-- `validateRuleArray(rules, ruleName)`: errors for one of the five rule
lists, in rule order. -/
def validateRuleArray (availableFieldIds : List String)
    (rules : Option (List ConditionalRule)) (ruleName : String) :
    List String :=
  match rules with
  | none => []
  | some rs =>
      (rs.enum.map (fun p => ruleErrors availableFieldIds ruleName p.1 p.2)).flatten

/-- `SchemaParser.validateConditionalRules(conditional, availableFieldIds)`. -/
def validateConditionalRules (conditional : ConditionalConfig)
    (availableFieldIds : List String) : List String :=
  validateRuleArray availableFieldIds conditional.show_ "conditional.show" ++
  validateRuleArray availableFieldIds conditional.hide "conditional.hide" ++
  validateRuleArray availableFieldIds conditional.enable "conditional.enable" ++
  validateRuleArray availableFieldIds conditional.disable "conditional.disable" ++
  validateRuleArray availableFieldIds conditional.require_ "conditional.require"

/-- The type-specific structural errors for one field (the `switch` in
`SchemaParser.validate`). -/
def fieldTypeErrors (index : Nat) (field : Field) : List String :=
  match field.type_ with
  | "select" =>
      if field.options.isSome then []
      else ["fields[" ++ toString index ++ "] of type " ++ field.type_
             ++ " requires options"]
  | "multiselect" =>
      if field.options.isSome then []
      else ["fields[" ++ toString index ++ "] of type " ++ field.type_
             ++ " requires options"]
  | "radio" =>
      match field.options with
      | some (.staticList _) => []
      | _ => ["fields[" ++ toString index ++ "] of type radio requires options array"]
  | "slider" =>
      if field.min.isSome && field.max.isSome then []
      else ["fields[" ++ toString index
             ++ "] of type slider requires min and max numbers"]
  | "rating" =>
      match field.max with
      | some m => if m ≤ 0 then
            ["fields[" ++ toString index ++ "] of type rating requires max number > 0"]
          else []
      | none => ["fields[" ++ toString index ++ "] of type rating requires max number > 0"]
  | "array" =>
      if field.hasItemSchema then []
      else ["fields[" ++ toString index ++ "] of type array requires itemSchema"]
  | "object" =>
      match field.objectFieldsIsArray with
      | some true => []
      | _ => ["fields[" ++ toString index ++ "] of type object requires fields array"]
  | _ => []

/-- All errors contributed for one field by the per-field loop in
`SchemaParser.validate` (id / label / type presence, then the type switch). -/
def fieldErrors (index : Nat) (field : Field) : List String :=
  (if field.id = "" then ["fields[" ++ toString index ++ "].id is required"] else []) ++
  (if field.label = "" then ["fields[" ++ toString index ++ "].label is required"] else []) ++
  (if field.type_ = "" then ["fields[" ++ toString index ++ "].type is required"] else []) ++
  fieldTypeErrors index field

/-- The duplicate-id report of `SchemaParser.validate`:
`ids.filter((id, index) => ids.indexOf(id) !== index)`. -/
def duplicateIds (ids : List String) : List String :=
  (ids.enum.filter (fun p => ids.indexOf p.2 ≠ p.1)).map (fun p => p.2)

/-- The per-field structural errors of the `schema.fields.forEach` loop. -/
def perFieldErrors (fields : List Field) : List String :=
  (fields.enum.map (fun p => fieldErrors p.1 p.2)).flatten

/-- The collected non-empty field ids (`ids.filter(Boolean)`). -/
def collectIds (fields : List Field) : List String :=
  (fields.map (fun f => f.id)).filter (fun i => i ≠ "")

/-- The duplicate-id error block. -/
def dupIdErrors (fields : List Field) : List String :=
  let dups := duplicateIds (collectIds fields)
  if dups.isEmpty then []
  else ["Duplicate field IDs found: " ++ String.intercalate ", " dups]

/-- The conditional-reference error block. -/
def condRefErrors (fields : List Field) : List String :=
  (fields.map (fun f =>
    match f.conditional with
    | some c => validateConditionalRules c (collectIds fields)
    | none => [])).flatten

/-- All errors contributed by the `Array.isArray(schema.fields)` branch of
`SchemaParser.validate`, in the order the source pushes them. -/
def fieldsSectionErrors (fields : List Field) : List String :=
  perFieldErrors fields ++ dupIdErrors fields ++ condRefErrors fields

/-- `SchemaParser.validate(schema)`.  A `null`/`undefined` argument is
modelled as `none`. -/
def validate (schema : Option FormSchema) : SchemaValidationResult :=
  match schema with
  | none => { isValid := false, errors := ["Schema is required"], warnings := [] }
  | some s =>
      let idErrors := if s.id = "" then ["Schema id is required"] else []
      let errors :=
        match s.fields with
        | none => idErrors ++ ["Schema fields must be an array"]
        | some fields => idErrors ++ fieldsSectionErrors fields
      { isValid := errors.isEmpty, errors := errors, warnings := [] }

/-! ### Dependency extraction and the dependency graph -/

/-- The inner `addRuleDependencies` of
`SchemaParser.extractFieldDependencies`: push each rule's `field` if it is
truthy and not already collected. -/
def addRuleDependencies (deps : List String)
    (rules : Option (List ConditionalRule)) : List String :=
  match rules with
  | none => deps
  | some rs =>
      rs.foldl (fun acc r =>
        if r.field ≠ "" && !acc.contains r.field then acc ++ [r.field] else acc)
        deps

/-- The conditional-rule part of `extractFieldDependencies`: the five
`addRuleDependencies` passes. -/
def conditionalRuleDependencies (field : Field) : List String :=
  match field.conditional with
  | none => []
  | some c =>
      addRuleDependencies (addRuleDependencies (addRuleDependencies
        (addRuleDependencies (addRuleDependencies [] c.show_) c.hide)
        c.enable) c.disable) c.require_

/-- `SchemaParser.extractFieldDependencies(field)`: field ids referenced by
the five conditional rule lists, then the `dependencies` array of a dynamic
options configuration on a select/multiselect field, first occurrence kept. -/
def extractFieldDependencies (field : Field) : List String :=
  let conditionalDeps := conditionalRuleDependencies field
  if field.type_ = "select" || field.type_ = "multiselect" then
    match field.options with
    | some (.dynamic cfg) =>
        match cfg.dependencies with
        | some l =>
            l.foldl (fun acc d => if acc.contains d then acc else acc ++ [d])
              conditionalDeps
        | none => conditionalDeps
    | _ => conditionalDeps
  else conditionalDeps

/-- A `DependencyGraph`: JS object mapping a field id to its dependency
list, in insertion order. -/
abbrev Graph := List (String × List String)

/-- The graph built by the loop in `SchemaParser.resolveFieldDependencies`:
`dependencies[field.id] = fieldDeps` for each field whose extracted
dependency list is non-empty. -/
def buildDependencyGraph (fields : List Field) : Graph :=
  fields.foldl (fun g f =>
    let fieldDeps := extractFieldDependencies f
    if fieldDeps.isEmpty then g else mapSet g f.id fieldDeps) []

/-- `dependencies[fieldId] || []`. -/
def graphGet (g : Graph) (k : String) : List String :=
  (mapGet? g k).getD []

/-! ### DFS cycle detection (`SchemaParser.validateDependencyGraph`)

The JS recursion is embedded with a fuel parameter; `none` means the fuel
ran out, which is proved unreachable for the fuel the entry point supplies
(`visit_isSome`).  `V` is the `visited` set (threaded through, in insertion
order) and `S` the `recursionStack` (passed downward; the JS code restores
it on every `false` return, and abandons it on `true` returns, where the
caller throws). -/

mutual

/-- The JS `hasCycle(fieldId)` closure. -/
def visit (g : Graph) (fuel : Nat) (n : String) (V S : List String) :
    Option (Bool × List String) :=
  match fuel with
  | 0 => none
  | f + 1 =>
      if S.contains n then some (true, V)
      else if V.contains n then some (false, V)
      else visitList g f (graphGet g n) (V ++ [n]) (S ++ [n])
termination_by (fuel, 0)

/-- The `for (const dep of deps)` loop inside `hasCycle`. -/
def visitList (g : Graph) (fuel : Nat) (ds : List String) (V S : List String) :
    Option (Bool × List String) :=
  match ds with
  | [] => some (false, V)
  | d :: ds' =>
      match visit g fuel d V S with
      | none => none
      | some (true, V') => some (true, V')
      | some (false, V') => visitList g fuel ds' V' S
termination_by (fuel, ds.length + 1)

end

/-- All node names occurring in a graph (keys and dependency targets). -/
def graphNodes (g : Graph) : List String :=
  g.map (fun p => p.1) ++ (g.map (fun p => p.2)).flatten

/-- Fuel supplied to each top-level `hasCycle` call; proved sufficient. -/
def graphFuel (g : Graph) : Nat := (graphNodes g).length + 1

/-- The `for (const fieldId of Object.keys(dependencies))` loop of
`validateDependencyGraph`, threading the shared `visited` set; returns the
field id named by the thrown `FormError`, or `none` when no cycle is
detected. -/
def detectCycleAux (g : Graph) : List String → List String → Option String
  | [], _ => none
  | k :: ks, V =>
      match visit g (graphFuel g) k V [] with
      | none => none
      | some (true, _) => some k
      | some (false, V') => detectCycleAux g ks V'

/-- `SchemaParser.validateDependencyGraph(dependencies)`: `some fieldId`
models the thrown `FormError("Circular dependency detected involving
field: <fieldId>", "schema", "CIRCULAR_DEPENDENCY_ERROR")`. -/
def validateDependencyGraph (g : Graph) : Option String :=
  detectCycleAux g (mapKeys g) []

/-- The two `FormError` shapes thrown by `SchemaParser`, with their
distinguishing payloads (`SCHEMA_VALIDATION_ERROR` carries the accumulated
error list, `CIRCULAR_DEPENDENCY_ERROR` carries the named field id). -/
inductive ParseError where
  | schemaValidation (errors : List String)
  | circularDependency (fieldId : String)
deriving DecidableEq, Repr

/-- `SchemaParser.resolveFieldDependencies(schema)` on a schema whose
`fields` is an array (the function iterates `schema.fields` directly). -/
def resolveFieldDependencies (fields : List Field) :
    Except ParseError Graph :=
  let dependencies := buildDependencyGraph fields
  match validateDependencyGraph dependencies with
  | some fieldId => .error (.circularDependency fieldId)
  | none => .ok dependencies

/-! ### Specification-side graph notions -/

/-- The edge relation of a dependency graph: `b` is one of `a`'s
dependencies. -/
def Edge (g : Graph) (a b : String) : Prop := b ∈ graphGet g a

/-- A dependency cycle: some node reaches itself by a non-empty edge path. -/
def Cyclic (g : Graph) : Prop := ∃ c, Relation.TransGen (Edge g) c c

/-- `k` reaches (possibly trivially) some node that lies on a cycle. -/
def ReachesCycle (g : Graph) (k : String) : Prop :=
  ∃ c, Relation.ReflTransGen (Edge g) k c ∧ Relation.TransGen (Edge g) c c

/-- A node is black when it is visited but no longer on the recursion
stack. -/
def Black (V S : List String) (x : String) : Prop := x ∈ V ∧ x ∉ S

/-- The DFS invariant: everything reachable from a black node is black,
and no black node lies on a cycle. -/
def Good (g : Graph) (V S : List String) : Prop :=
  ∀ b, Black V S b →
    (∀ m, Relation.ReflTransGen (Edge g) b m → Black V S m) ∧
    ¬ Relation.TransGen (Edge g) b b

/-! ### Validation-schema compiler -/

/-- `SchemaParser.getBaseSchemaForFieldType(field)`.  The TS signature
allows `undefined` but every branch (including `default`) returns a schema,
so the embedding is total. -/
def getBaseSchemaForFieldType (field : Field) : ZodSchema :=
  match field.type_ with
  | "text" => .zString []
  | "password" => .zString []
  | "email" => .zString []
  | "textarea" => .zString []
  | "number" => .zNumber
  | "checkbox" => .zBoolean
  | "switch" => .zBoolean
  | "date" => .zDate
  | "time" => .zDate
  | "datetime" => .zDate
  | "select" => .zString []
  | "multiselect" => .zArray (.zString [])
  | "array" => .zArray .zAny
  | "object" => .zRecord .zAny
  | "file" => .zAny
  | "slider" => .zNumber
  | "rating" => .zNumber
  | _ => .zAny

/-- `SchemaParser.buildFieldValidationSchema(field)`: the explicit
`field.validation.schema` when declared, else the type-derived base; then
`.min(1, "This field is required")` when required and a `ZodString`, and
`.optional()` when not required. -/
def buildFieldValidationSchema (field : Field) : ZodSchema :=
  let schema :=
    match field.validation with
    | some v =>
        match v.schema with
        | some s => s
        | none => getBaseSchemaForFieldType field
    | none => getBaseSchemaForFieldType field
  if field.required then
    match schema with
    | .zString checks => .zString (checks ++ [(1, "This field is required")])
    | s => s
  else .zOptional schema

/-- `SchemaParser.extractFieldConditionalRules(field)`: the five lists
concatenated in order. -/
def extractFieldConditionalRules (field : Field) : List ConditionalRule :=
  match field.conditional with
  | none => []
  | some c =>
      (c.show_.getD []) ++ (c.hide.getD []) ++ (c.enable.getD []) ++
      (c.disable.getD []) ++ (c.require_.getD [])

/-- `SchemaParser.extractConditionalRules(fields)`. -/
def extractConditionalRules (fields : List Field) : List ConditionalRule :=
  (fields.map extractFieldConditionalRules).flatten

/-- The `_parsed` payload of a `ParsedField`. -/
structure ParsedFieldData where
  dependencies : List String
  conditionalRules : List ConditionalRule
  validationSchema : ZodSchema

/-- A `ParsedField`. -/
structure ParsedField where
  field : Field
  parsed : ParsedFieldData

/-- `SchemaParser.parseFields(fields)`. -/
def parseFields (fields : List Field) : List ParsedField :=
  fields.map (fun f =>
    { field := f
      parsed :=
        { dependencies := extractFieldDependencies f
          conditionalRules := extractFieldConditionalRules f
          validationSchema := buildFieldValidationSchema f } })

/-- A `ValidationSchema` (`{global, fields}`). -/
structure ValidationSchema where
  global : Option ZodSchema
  fields : List (String × ZodSchema)

/-- `SchemaParser.buildValidationSchema(schema)` for a schema whose
`fields` member is the given array. -/
def buildValidationSchema (globalValidation : Option GlobalValidation)
    (fields : List Field) : ValidationSchema :=
  { global := globalValidation.bind (fun v => v.schema)
    fields := fields.foldl (fun m f => mapSet m f.id (buildFieldValidationSchema f)) [] }

/-- A `ParsedSchema`. -/
structure ParsedSchema where
  fields : List ParsedField
  validation : ValidationSchema
  conditionalRules : List ConditionalRule
  dependencies : Graph

/-- `SchemaParser.parse(schema)`.  The two branches returning a
`schemaValidation` error under a `some` pattern are unreachable when
validation succeeded (validation fails whenever `fields` is not an array
or the schema is absent); they are kept so the function is total. -/
def parse (schema : Option FormSchema) : Except ParseError ParsedSchema :=
  let validationResult := validate schema
  if validationResult.isValid then
    match schema with
    | some s =>
        match s.fields with
        | some fields =>
            match resolveFieldDependencies fields with
            | .error e => .error e
            | .ok dependencies =>
                .ok { fields := parseFields fields
                      validation := buildValidationSchema s.validation fields
                      conditionalRules := extractConditionalRules fields
                      dependencies := dependencies }
        | none => .error (.schemaValidation validationResult.errors)
    | none => .error (.schemaValidation validationResult.errors)
  else .error (.schemaValidation validationResult.errors)

/-! ### Field-type registry and renderer dispatch (`FieldRenderer.tsx`)

The registry's component values are opaque to the dispatch logic, so they
are a type parameter `C`. -/

/-- The `FieldTypeRegistry` backing `Map`, in insertion order. -/
abbrev Registry (C : Type) := List (String × C)

/-- `FieldTypeRegistry.register(type, component)` / `Map.set`. -/
def registryRegister {C : Type} (reg : Registry C) (type_ : String) (c : C) :
    Registry C :=
  mapSet reg type_ c

/-- `FieldTypeRegistry.get(type)`. -/
def registryGet {C : Type} (reg : Registry C) (type_ : String) : Option C :=
  mapGet? reg type_

/-- `FieldTypeRegistry.has(type)`. -/
def registryHas {C : Type} (reg : Registry C) (type_ : String) : Bool :=
  (registryGet reg type_).isSome

/-- `FieldTypeRegistry.getRegisteredTypes()`. -/
def registryTypes {C : Type} (reg : Registry C) : List String :=
  mapKeys reg

/-- `FieldTypeRegistry.clear()` (also exposed as
`FieldRenderer.clearRegistry()`). -/
def registryClear {C : Type} (_reg : Registry C) : Registry C := []

/-- The node produced by `FieldRenderer.render` for one field: the
registered component for the field's type applied to the field props, or —
when no component is registered — the built-in `UnsupportedFieldComponent`
placeholder, which displays the field's `type` and `id`. -/
inductive RenderOutcome (C : Type) where
  | component (c : C) (fieldId : String)
  | unsupportedPlaceholder (fieldId : String) (fieldType : String)
deriving DecidableEq, Repr

/-- `FieldRenderer.render(field, context)` restricted to component
resolution (`this.registry.get(fieldType) || UnsupportedFieldComponent`). -/
def renderField {C : Type} (reg : Registry C) (field : Field) :
    RenderOutcome C :=
  match registryGet reg field.type_ with
  | some c => .component c field.id
  | none => .unsupportedPlaceholder field.id field.type_

/-! ### Form controller (`apps/mobile/components/Form.tsx`)

The controller's state transitions run on one logical event loop; each
handler is modelled as a function from controller state to controller
state plus the list of external event callbacks it fires, in order.  The
`setTimeout(..., 0)` silent-validity pass inside `handleChange` is folded
into the `change` transition (it runs before any subsequent user action on
the event loop); it reads the *pre-change* `values` closure exactly as the
stale closure in the source does. -/

/-- A value map (`values`), a JS object. -/
abbrev ValueMap := List (String × Value)

/-- An error map (`errors`), field id to error strings. -/
abbrev ErrorMap := List (String × List String)

/-- `values[id]`, with JS `undefined` for a missing key. -/
def getVal (values : ValueMap) (id : String) : Value :=
  (mapGet? values id).getD .absent

/-- An external event callback invocation (`events.*`). -/
inductive Ev where
  | changeCb (values : ValueMap)
  | fieldFocusCb (fieldId : String)
  | fieldBlurCb (fieldId : String)
  | validationChangeCb (isValid : Bool) (errors : ErrorMap)
  | submitCb (values : ValueMap)
  | resetCb

/-- The controller state: the component state hooks of `Form.tsx` plus the
construction-time data (`schema.fields` and the `initialValuesRef`
snapshot, which none of the transitions below mutate). -/
structure Controller where
  schemaFields : List Field
  initialValues : ValueMap
  values : ValueMap
  errors : ErrorMap
  touched : List (String × Bool)
  isSubmitting : Bool
  isValid : Bool
  isDirty : Bool
  hasSubmitted : Bool

/-- The controller state on mount: `useState(initialValues)`,
`useState({})` for errors and touched, and `false` for the flags. -/
def Controller.init (schemaFields : List Field) (initialValues : ValueMap) :
    Controller :=
  { schemaFields := schemaFields
    initialValues := initialValues
    values := initialValues
    errors := []
    touched := []
    isSubmitting := false
    isValid := false
    isDirty := false
    hasSubmitted := false }

/-- The `for (const field of schema.fields)` loop of `validateForm` in
`Form.tsx`, with the accumulated `(formIsValid, formErrors)` pair made
explicit. -/
def validateFormAux (values : ValueMap) :
    List Field → Bool × ErrorMap → Bool × ErrorMap
  | [], acc => acc
  | field :: rest, acc =>
      let fieldValue := getVal values field.id
      let fieldErrors :=
        if field.required && fieldValue.falsy then [field.label ++ " is required"]
        else []
      validateFormAux values rest
        (acc.1 && fieldErrors.isEmpty,
         if fieldErrors.isEmpty then acc.2 else mapSet acc.2 field.id fieldErrors)

/-- The `validateForm` body of `Form.tsx`: the required-field pass over
`schema.fields` against the given values, producing `(formIsValid,
formErrors)`. -/
def validateForm (fields : List Field) (values : ValueMap) :
    Bool × ErrorMap :=
  validateFormAux values fields (true, [])

/-- `handleChange(id, value)`: merge the value, recompute `isDirty` by
structural comparison with the initial snapshot, fire the external
`change` callback, eagerly clear the field's error entry, and (deferred
pass) recompute `isValid` from the required-field rule over the stale
pre-change `values` closure patched by `values[field.id] === id ? value :
values[field.id]`, exactly as in the source. -/
def stepChange (c : Controller) (id : String) (v : Value) :
    Controller × List Ev :=
  let newValues := mapSet c.values id v
  let isDirty' := !(newValues == c.initialValues)
  let errors' := mapRemove c.errors id
  let isValid' := c.schemaFields.all (fun field =>
    let stale := getVal c.values field.id
    let fieldValue := match stale with
      | .str s => if s = id then v else stale
      | _ => stale
    !(field.required && fieldValue.falsy))
  ({ c with values := newValues, isDirty := isDirty', errors := errors',
             isValid := isValid' },
   [.changeCb newValues])

/-- `handleFieldBlur(fieldId)`. -/
def stepBlur (c : Controller) (fieldId : String) : Controller × List Ev :=
  ({ c with touched := mapSet c.touched fieldId true }, [.fieldBlurCb fieldId])

/-- The `validate()` transition: run `validateForm`, replace `errors` and
`isValid`, and fire `validationChange`. -/
def stepValidate (c : Controller) : Controller × List Ev :=
  let r := validateForm c.schemaFields c.values
  ({ c with errors := r.2, isValid := r.1 },
   [.validationChangeCb r.1 r.2])

/-- The synchronous prefix of `handleSubmit()` up to (and including) the
invocation of the external `submit` callback: the `isSubmitting` guard,
`setIsSubmitting(true)`, `setHasSubmitted(true)`, the `validateForm()`
call, and `events.submit(values)` when valid. -/
def stepSubmitStart (c : Controller) : Controller × List Ev :=
  if c.isSubmitting then (c, [])
  else
    let r := validateForm c.schemaFields c.values
    ({ c with isSubmitting := true, hasSubmitted := true,
               errors := r.2, isValid := r.1 },
     [.validationChangeCb r.1 r.2] ++ (if r.1 then [.submitCb c.values] else []))

/-- The `finally` block of `handleSubmit()`: `setIsSubmitting(false)`. -/
def stepSubmitFinish (c : Controller) : Controller × List Ev :=
  ({ c with isSubmitting := false }, [])

/-- `handleReset()`. -/
def stepReset (c : Controller) : Controller × List Ev :=
  ({ c with values := c.initialValues
            errors := []
            touched := []
            isSubmitting := false
            isDirty := false
            isValid := true
            hasSubmitted := false },
   [.resetCb])

/-- A controller transition. -/
inductive Action where
  | change (id : String) (v : Value)
  | blur (fieldId : String)
  | validate
  | submitStart
  | submitFinish
  | reset

/-- Whether an action is one of the `change`/`blur`/`validate` user-edit
transitions. -/
def Action.isUserEdit : Action → Prop
  | .change _ _ => True
  | .blur _ => True
  | .validate => True
  | _ => False

/-- Apply one action. -/
def applyAction (c : Controller) : Action → Controller × List Ev
  | .change id v => stepChange c id v
  | .blur fieldId => stepBlur c fieldId
  | .validate => stepValidate c
  | .submitStart => stepSubmitStart c
  | .submitFinish => stepSubmitFinish c
  | .reset => stepReset c

/-- Apply a sequence of actions, accumulating the fired callbacks. -/
def applyActions (c : Controller) : List Action → Controller × List Ev
  | [] => (c, [])
  | a :: as' =>
      let r := applyAction c a
      let r' := applyActions r.1 as'
      (r'.1, r.2 ++ r'.2)

/-- The number of external `submit` callback invocations in a trace. -/
def countSubmitCb (evs : List Ev) : Nat :=
  (evs.filter (fun e => match e with | .submitCb _ => true | _ => false)).length

/-! ### Specification-side helper definitions -/

/-- One of the five conditional rule lists, for quantifying over them. -/
inductive CondListKind where
  | showList | hideList | enableList | disableList | requireList
deriving DecidableEq, Repr

/-- The rule list a kind selects in a `ConditionalConfig`. -/
def condListOf (c : ConditionalConfig) : CondListKind → Option (List ConditionalRule)
  | .showList => c.show_
  | .hideList => c.hide
  | .enableList => c.enable
  | .disableList => c.disable
  | .requireList => c.require_

/-- The `<listName>` used in validation error messages for a kind. -/
def condListName : CondListKind → String
  | .showList => "conditional.show"
  | .hideList => "conditional.hide"
  | .enableList => "conditional.enable"
  | .disableList => "conditional.disable"
  | .requireList => "conditional.require"

/-- The `dependencies` array declared on a dynamic-options configuration
of a select/multiselect field (the spec's second dependency source);
empty for every other field. -/
def dynamicOptionDependencies (field : Field) : List String :=
  if field.type_ = "select" ∨ field.type_ = "multiselect" then
    match field.options with
    | some (.dynamic cfg) => cfg.dependencies.getD []
    | _ => []
  else []

/-- The base rule selected by the validation-schema compiler before the
required/optional adjustment: the declared explicit rule when present,
otherwise the type-derived base. -/
def fieldBaseSchema (field : Field) : ZodSchema :=
  match field.validation with
  | some v =>
      match v.schema with
      | some s => s
      | none => getBaseSchemaForFieldType field
  | none => getBaseSchemaForFieldType field

/-! ### Concrete example schemas used by the claims -/

/-- The single required text field of the spec's end-to-end scenario A. -/
def nameField : Field := { id := "name", type_ := "text", label := "Name", required := true }

/-- Scenario A's schema `{id:"f", fields:[{id:"name", ...}]}`. -/
def scenarioASchema : FormSchema := { id := "f", fields := some [nameField] }

/-- A conditional rule `{field: "b", operator: "equals"}`. -/
def ruleOnB : ConditionalRule := { field := "b", operator := some .equals }

/-- A conditional rule `{field: "c", operator: "equals"}`. -/
def ruleOnC : ConditionalRule := { field := "c", operator := some .equals }

/-- A conditional rule `{field: "a", operator: "equals", value: "yes"}`. -/
def ruleOnA : ConditionalRule :=
  { field := "a", operator := some .equals, value := some (.str "yes") }

/-- Field `a`, shown when `b` equals a value: depends on `b`. -/
def cycFieldA : Field := {
  id := "a"
  type_ := "text"
  label := "A"
  conditional := some { show_ := some [ruleOnB] } }

/-- Field `b`, shown when `c` equals a value: depends on `c`. -/
def cycFieldB : Field := {
  id := "b"
  type_ := "text"
  label := "B"
  conditional := some { show_ := some [ruleOnC] } }

/-- Field `c`, shown when `b` equals a value: depends on `b`.
Together with `cycFieldB` this forms the two-node cycle `b → c → b`;
`cycFieldA` merely depends on that cycle. -/
def cycFieldC : Field := {
  id := "c"
  type_ := "text"
  label := "C"
  conditional := some { show_ := some [ruleOnB] } }

/-- The counterexample field list: dependency graph
`{a: [b], b: [c], c: [b]}`, cyclic via `b → c → b` with `a` off-cycle. -/
def cycFields : List Field := [cycFieldA, cycFieldB, cycFieldC]

/-- The counterexample schema wrapping `cycFields`. -/
def cycSchema : FormSchema := { id := "cyc", fields := some [cycFieldA, cycFieldB, cycFieldC] }

/-- Its dependency graph as built by the resolver. -/
def cycGraph : Graph := buildDependencyGraph cycFields

/-- A plain text field `a` with no dependencies. -/
def plainFieldA : Field := { id := "a", type_ := "text", label := "A" }

/-- Field `b`, conditionally shown when `a` equals `"yes"` (the spec's
end-to-end scenario B). -/
def depFieldB : Field := {
  id := "b"
  type_ := "text"
  label := "B"
  conditional := some { show_ := some [ruleOnA] } }

/-- Scenario B's field list. -/
def scenarioBFields : List Field := [plainFieldA, depFieldB]

/-- Scenario B's schema. -/
def scenarioBSchema : FormSchema := { id := "sb", fields := some [plainFieldA, depFieldB] }

/-- The two mutually dependent fields of the repository's own
circular-dependency test (`field1 ⇄ field2`). -/
def mutualField1 : Field := {
  id := "field1"
  type_ := "text"
  label := "Field 1"
  conditional := some { show_ := some [{ field := "field2", operator := some .equals }] } }

/-- The second field of the mutual cycle. -/
def mutualField2 : Field := {
  id := "field2"
  type_ := "text"
  label := "Field 2"
  conditional := some { show_ := some [{ field := "field1", operator := some .equals }] } }

/-- A schema whose `fields` member is the empty array. -/
def emptyFieldsSchema : FormSchema := { id := "empty-form", fields := some [] }

/-- A conditional rule referencing a field id that exists in no schema
used here. -/
def ruleOnUnknown : ConditionalRule := { field := "zzz", operator := some .equals }

/-- Field `b` with a `hide` rule referencing the unknown field `zzz`. -/
def unknownRefField : Field := {
  id := "b"
  type_ := "text"
  label := "B"
  conditional := some { hide := some [ruleOnUnknown] } }

/-- A schema containing a conditional reference to an unknown field. -/
def unknownRefSchema : FormSchema :=
  { id := "s", fields := some [plainFieldA, unknownRefField] }

/-- A controller over scenario A's single required field whose `name`
value is already filled, used to exercise submission. -/
def filledController : Controller :=
  Controller.init [nameField] [("name", .str "John")]

/-- A required checkbox field. -/
def requiredCheckbox : Field :=
  { id := "agree", type_ := "checkbox", label := "Agree", required := true }

/-! ## Proof development -/

/-! ### Graph and DFS lemmas -/

lemma mem_graphGet_mem_nodes {g : Graph} {a b : String}
    (h : b ∈ graphGet g a) : b ∈ graphNodes g := by
  unfold graphGet mapGet? at h
  cases hf : g.find? (fun p => p.1 = a) with
  | none => simp [hf] at h
  | some pr =>
      have hmem := List.mem_of_find?_eq_some hf
      simp only [hf, Option.map_some', Option.getD_some] at h
      unfold graphNodes
      exact List.mem_append.mpr (Or.inr
        (List.mem_flatten.mpr ⟨pr.2, List.mem_map.mpr ⟨pr, hmem, rfl⟩, h⟩))

lemma edge_mem_keys {g : Graph} {a b : String} (h : Edge g a b) :
    a ∈ mapKeys g := by
  unfold Edge graphGet mapGet? at h
  cases hf : g.find? (fun p => p.1 = a) with
  | none => simp [hf] at h
  | some pr =>
      have hmem := List.mem_of_find?_eq_some hf
      have hpred := List.find?_some hf
      have hpr : pr.1 = a := by simpa using hpred
      exact List.mem_map.mpr ⟨pr, hmem, hpr⟩

lemma mapKeys_subset_nodes {g : Graph} {x : String} (h : x ∈ mapKeys g) :
    x ∈ graphNodes g :=
  List.mem_append.mpr (Or.inl h)

/-! ### DFS cycle-detection correctness -/

lemma chain_transGen_getLast {R : String → String → Prop} :
    ∀ (l : List String) (a : String), List.Chain R a l → ∀ (h : l ≠ []),
      Relation.TransGen R a (l.getLast h)
  | [], _, _, h => absurd rfl h
  | [b], _, hc, _ => by
      cases hc with
      | cons hr _ => simpa using Relation.TransGen.single hr
  | b :: c :: l', a, hc, h => by
      cases hc with
      | cons hr htl =>
          have hrec := chain_transGen_getLast (c :: l') b htl (by simp)
          have hl : (b :: c :: l').getLast h = (c :: l').getLast (by simp) := by
            rw [List.getLast_cons]
          rw [hl]
          exact Relation.TransGen.head hr hrec

lemma chain'_mem_cycle {R : String → String → Prop} {S : List String}
    {n : String} (hc : List.Chain' R (S ++ [n])) (hn : n ∈ S) :
    Relation.TransGen R n n := by
  obtain ⟨l1, l2, rfl⟩ := List.append_of_mem hn
  have hsfx : List.Chain' R (n :: (l2 ++ [n])) :=
    hc.suffix ⟨l1, by simp⟩
  have hchain : List.Chain R n (l2 ++ [n]) := hsfx
  have hlast := chain_transGen_getLast (l2 ++ [n]) n hchain (by simp)
  simpa using hlast

lemma chain'_concat {R : String → String → Prop} {S : List String}
    {d : String} (hc : List.Chain' R S) (hS : S ≠ [])
    (hd : R (S.getLast hS) d) : List.Chain' R (S ++ [d]) := by
  apply hc.append (List.chain'_singleton d)
  intro x hx y hy
  simp only [List.head?_cons, Option.mem_def, Option.some.injEq] at hy
  rw [List.getLast?_eq_getLast S hS] at hx
  simp only [Option.mem_def, Option.some.injEq] at hx
  rw [← hx, ← hy]
  exact hd

lemma nodup_subset_length_le {V W : List String} (hn : V.Nodup)
    (hs : ∀ x ∈ V, x ∈ W) : V.length ≤ W.dedup.length :=
  List.Subperm.length_le
    (List.subperm_of_subset hn (fun x hx => List.mem_dedup.mpr (hs x hx)))

/-- Structural facts about a completed DFS call: the visited list only
grows, stays duplicate-free, and new entries come from the call target,
the pending dependency list, or the graph's nodes. -/
lemma dfs_shape (g : Graph) : ∀ fuel : Nat,
    (∀ n V S b V', visit g fuel n V S = some (b, V') →
       (∀ x ∈ V, x ∈ V') ∧ (V.Nodup → V'.Nodup) ∧
       (∀ x ∈ V', x ∈ V ∨ x = n ∨ x ∈ graphNodes g)) ∧
    (∀ ds V S b V', visitList g fuel ds V S = some (b, V') →
       (∀ x ∈ V, x ∈ V') ∧ (V.Nodup → V'.Nodup) ∧
       (∀ x ∈ V', x ∈ V ∨ x ∈ ds ∨ x ∈ graphNodes g)) := by
  intro fuel
  induction fuel with
  | zero =>
      constructor
      · intro n V S b V' h
        simp [visit] at h
      · intro ds V S b V' h
        cases ds with
        | nil =>
            simp only [visitList, Option.some.injEq, Prod.mk.injEq] at h
            obtain ⟨-, rfl⟩ := h
            exact ⟨fun x hx => hx, fun hn => hn, fun x hx => Or.inl hx⟩
        | cons d ds' =>
            simp [visitList, visit] at h
  | succ f ih =>
      have hvisit : ∀ n V S b V', visit g (f + 1) n V S = some (b, V') →
          (∀ x ∈ V, x ∈ V') ∧ (V.Nodup → V'.Nodup) ∧
          (∀ x ∈ V', x ∈ V ∨ x = n ∨ x ∈ graphNodes g) := by
        intro n V S b V' h
        rw [visit] at h
        split_ifs at h with h1 h2
        · simp only [Option.some.injEq, Prod.mk.injEq] at h
          obtain ⟨-, rfl⟩ := h
          exact ⟨fun x hx => hx, fun hn => hn, fun x hx => Or.inl hx⟩
        · simp only [Option.some.injEq, Prod.mk.injEq] at h
          obtain ⟨-, rfl⟩ := h
          exact ⟨fun x hx => hx, fun hn => hn, fun x hx => Or.inl hx⟩
        · have hnV : n ∉ V := by simpa using h2
          obtain ⟨hgrow, hnd, hnew⟩ := ih.2 _ _ _ _ _ h
          refine ⟨?_, ?_, ?_⟩
          · intro x hx
            exact hgrow x (List.mem_append.mpr (Or.inl hx))
          · intro hVnd
            apply hnd
            simp [List.nodup_append, hVnd, hnV]
          · intro x hx
            rcases hnew x hx with hx' | hx' | hx'
            · rcases List.mem_append.mp hx' with hx'' | hx''
              · exact Or.inl hx''
              · exact Or.inr (Or.inl (by simpa using hx''))
            · exact Or.inr (Or.inr (mem_graphGet_mem_nodes hx'))
            · exact Or.inr (Or.inr hx')
      refine ⟨hvisit, ?_⟩
      intro ds
      induction ds with
      | nil =>
          intro V S b V' h
          simp only [visitList, Option.some.injEq, Prod.mk.injEq] at h
          obtain ⟨-, rfl⟩ := h
          exact ⟨fun x hx => hx, fun hn => hn, fun x hx => Or.inl hx⟩
      | cons d ds' ihds =>
          intro V S b V' h
          rw [visitList] at h
          cases hv : visit g (f + 1) d V S with
          | none => rw [hv] at h; exact absurd h (by simp)
          | some r =>
              rw [hv] at h
              obtain ⟨rb, rV⟩ := r
              cases rb with
              | true =>
                  simp only [Option.some.injEq, Prod.mk.injEq] at h
                  obtain ⟨-, rfl⟩ := h
                  obtain ⟨hgrow, hnd, hnew⟩ := hvisit _ _ _ _ _ hv
                  refine ⟨hgrow, hnd, ?_⟩
                  intro x hx
                  rcases hnew x hx with hx' | hx' | hx'
                  · exact Or.inl hx'
                  · exact Or.inr (Or.inl (by simp [hx']))
                  · exact Or.inr (Or.inr hx')
              | false =>
                  obtain ⟨hgrow1, hnd1, hnew1⟩ := hvisit _ _ _ _ _ hv
                  obtain ⟨hgrow2, hnd2, hnew2⟩ := ihds _ _ _ _ h
                  refine ⟨fun x hx => hgrow2 x (hgrow1 x hx), fun hn => hnd2 (hnd1 hn), ?_⟩
                  intro x hx
                  rcases hnew2 x hx with hx' | hx' | hx'
                  · rcases hnew1 x hx' with hx'' | hx'' | hx''
                    · exact Or.inl hx''
                    · exact Or.inr (Or.inl (by simp [hx'']))
                    · exact Or.inr (Or.inr hx'')
                  · exact Or.inr (Or.inl (by simp [hx']))
                  · exact Or.inr (Or.inr hx')

/-- Fuel adequacy: with fuel at least the number of distinct graph nodes
not yet visited (plus one), the DFS never runs out of fuel. -/
lemma dfs_fuel (g : Graph) : ∀ fuel : Nat,
    (∀ n V S, V.Nodup → (∀ x ∈ V, x ∈ graphNodes g) → n ∈ graphNodes g →
       (graphNodes g).dedup.length + 1 ≤ fuel + V.length →
       (visit g fuel n V S).isSome) ∧
    (∀ ds V S, V.Nodup → (∀ x ∈ V, x ∈ graphNodes g) →
       (∀ d ∈ ds, d ∈ graphNodes g) →
       (graphNodes g).dedup.length + 1 ≤ fuel + V.length →
       (visitList g fuel ds V S).isSome) := by
  intro fuel
  induction fuel with
  | zero =>
      constructor
      · intro n V S hnd hsub _ hfuel
        have := nodup_subset_length_le hnd hsub
        omega
      · intro ds V S hnd hsub _ hfuel
        have := nodup_subset_length_le hnd hsub
        omega
  | succ f ih =>
      have hvisit : ∀ n V S, V.Nodup → (∀ x ∈ V, x ∈ graphNodes g) →
          n ∈ graphNodes g →
          (graphNodes g).dedup.length + 1 ≤ (f + 1) + V.length →
          (visit g (f + 1) n V S).isSome := by
        intro n V S hnd hsub hn hfuel
        rw [visit]
        split_ifs with h1 h2
        · simp
        · simp
        · have hnV : n ∉ V := by simpa using h2
          apply ih.2
          · simp [List.nodup_append, hnd, hnV]
          · intro x hx
            rcases List.mem_append.mp hx with hx' | hx'
            · exact hsub x hx'
            · simpa using (by simpa using hx') ▸ hn
          · intro d hd
            exact mem_graphGet_mem_nodes hd
          · simp only [List.length_append, List.length_cons, List.length_nil]
            omega
      refine ⟨hvisit, ?_⟩
      intro ds
      induction ds with
      | nil =>
          intro V S _ _ _ _
          simp [visitList]
      | cons d ds' ihds =>
          intro V S hnd hsub hds hfuel
          rw [visitList]
          have hv := hvisit d V S hnd hsub (hds d (by simp)) hfuel
          cases hveq : visit g (f + 1) d V S with
          | none => rw [hveq] at hv; exact absurd hv (by simp)
          | some r =>
              obtain ⟨rb, rV⟩ := r
              cases rb with
              | true => simp
              | false =>
                  obtain ⟨hgrow, hndf, _⟩ := (dfs_shape g (f + 1)).1 _ _ _ _ _ hveq
                  have hlen : V.length ≤ rV.length :=
                    List.Subperm.length_le (List.subperm_of_subset hnd hgrow)
                  apply ihds
                  · exact hndf hnd
                  · intro x hx
                    rcases ((dfs_shape g (f + 1)).1 _ _ _ _ _ hveq).2.2 x hx with
                      hx' | hx' | hx'
                    · exact hsub x hx'
                    · exact hx' ▸ hds d (by simp)
                    · exact hx'
                  · intro d' hd'
                    exact hds d' (by simp [hd'])
                  · omega

/-- Soundness of a `true` verdict: if the stack extended by the current
node is an edge chain and the DFS reports a cycle, the current node
reaches a node lying on a cycle. -/
lemma dfs_true (g : Graph) : ∀ fuel : Nat,
    (∀ n V S V', List.Chain' (Edge g) (S ++ [n]) →
       visit g fuel n V S = some (true, V') → ReachesCycle g n) ∧
    (∀ ds V S V' (hS : S ≠ []), List.Chain' (Edge g) S →
       (∀ d ∈ ds, Edge g (S.getLast hS) d) →
       visitList g fuel ds V S = some (true, V') →
       ReachesCycle g (S.getLast hS)) := by
  intro fuel
  induction fuel with
  | zero =>
      constructor
      · intro n V S V' _ h
        simp [visit] at h
      · intro ds V S V' _ _ _ h
        cases ds with
        | nil => simp [visitList] at h
        | cons d ds' => simp [visitList, visit] at h
  | succ f ih =>
      have hvisit : ∀ n V S V', List.Chain' (Edge g) (S ++ [n]) →
          visit g (f + 1) n V S = some (true, V') → ReachesCycle g n := by
        intro n V S V' hchain h
        rw [visit] at h
        split_ifs at h with h1 h2
        · have hn : n ∈ S := by simpa using h1
          exact ⟨n, Relation.ReflTransGen.refl, chain'_mem_cycle hchain hn⟩
        · simp at h
        · have hSne : S ++ [n] ≠ [] := by simp
          have hlast : (S ++ [n]).getLast hSne = n := by simp
          have hedges : ∀ d ∈ graphGet g n, Edge g ((S ++ [n]).getLast hSne) d := by
            intro d hd
            rw [hlast]
            exact hd
          have := ih.2 _ _ _ _ hSne hchain hedges h
          rwa [hlast] at this
      refine ⟨hvisit, ?_⟩
      intro ds
      induction ds with
      | nil =>
          intro V S V' _ _ _ h
          simp [visitList] at h
      | cons d ds' ihds =>
          intro V S V' hS hchain hedges h
          rw [visitList] at h
          cases hveq : visit g (f + 1) d V S with
          | none => rw [hveq] at h; exact absurd h (by simp)
          | some r =>
              rw [hveq] at h
              obtain ⟨rb, rV⟩ := r
              cases rb with
              | true =>
                  have hchain' : List.Chain' (Edge g) (S ++ [d]) :=
                    chain'_concat hchain hS (hedges d (by simp))
                  obtain ⟨c, hreach, hcyc⟩ := hvisit _ _ _ _ hchain' hveq
                  exact ⟨c, Relation.ReflTransGen.head (hedges d (by simp)) hreach, hcyc⟩
              | false =>
                  exact ihds _ _ _ hS hchain
                    (fun d' hd' => hedges d' (by simp [hd'])) h

lemma good_nil (g : Graph) (S : List String) : Good g [] S := by
  intro b hb
  exact absurd hb.1 (by simp)

/-- Preservation of the invariant by a `false` verdict: the call target
ends up black and the invariant still holds. -/
lemma dfs_false (g : Graph) : ∀ fuel : Nat,
    (∀ n V S V', Good g V S → visit g fuel n V S = some (false, V') →
       Good g V' S ∧ Black V' S n ∧ (∀ x ∈ V, x ∈ V')) ∧
    (∀ ds V S V', Good g V S → visitList g fuel ds V S = some (false, V') →
       Good g V' S ∧ (∀ d ∈ ds, Black V' S d) ∧ (∀ x ∈ V, x ∈ V')) := by
  intro fuel
  induction fuel with
  | zero =>
      constructor
      · intro n V S V' _ h
        simp [visit] at h
      · intro ds V S V' hgood h
        cases ds with
        | nil =>
            simp only [visitList, Option.some.injEq, Prod.mk.injEq] at h
            obtain ⟨-, rfl⟩ := h
            exact ⟨hgood, by simp, fun x hx => hx⟩
        | cons d ds' => simp [visitList, visit] at h
  | succ f ih =>
      have hvisit : ∀ n V S V', Good g V S →
          visit g (f + 1) n V S = some (false, V') →
          Good g V' S ∧ Black V' S n ∧ (∀ x ∈ V, x ∈ V') := by
        intro n V S V' hgood h
        rw [visit] at h
        split_ifs at h with h1 h2
        · simp at h
        · simp only [Option.some.injEq, Prod.mk.injEq] at h
          obtain ⟨-, rfl⟩ := h
          have hnS : n ∉ S := by simpa using h1
          exact ⟨hgood, ⟨by simpa using h2, hnS⟩, fun x hx => hx⟩
        · have hnS : n ∉ S := by simpa using h1
          have hnV : n ∉ V := by simpa using h2
          -- the invariant holds for the pushed state
          have hgood2 : Good g (V ++ [n]) (S ++ [n]) := by
            intro b hb
            have hbn : b ≠ n := by
              intro hbn
              exact hb.2 (by simp [hbn])
            have hbV : b ∈ V := by
              rcases List.mem_append.mp hb.1 with hb' | hb'
              · exact hb'
              · exact absurd (by simpa using hb') hbn
            have hbS : b ∉ S := fun hbS => hb.2 (by simp [hbS])
            obtain ⟨hreach, hcyc⟩ := hgood b ⟨hbV, hbS⟩
            refine ⟨?_, hcyc⟩
            intro m hm
            obtain ⟨hmV, hmS⟩ := hreach m hm
            have hmn : m ≠ n := fun hmn => hnV (hmn ▸ hmV)
            exact ⟨List.mem_append.mpr (Or.inl hmV), by simp [hmS, hmn]⟩
          obtain ⟨hgood', hblack', hgrow'⟩ := ih.2 _ _ _ _ hgood2 h
          have hgrowV : ∀ x ∈ V, x ∈ V' := fun x hx =>
            hgrow' x (List.mem_append.mpr (Or.inl hx))
          have hnV' : n ∈ V' := hgrow' n (by simp)
          -- everything reachable from `n` is black for the popped stack
          have hreachn : ∀ m, Relation.ReflTransGen (Edge g) n m →
              m ∈ V' ∧ m ∉ S := by
            intro m hm
            rcases Relation.ReflTransGen.cases_head hm with rfl | ⟨d, hd, hdm⟩
            · exact ⟨hnV', hnS⟩
            · obtain ⟨hmV, hmS⟩ := (hgood' d (hblack' d hd)).1 m hdm
              exact ⟨hmV, fun hmS' => hmS (by simp [hmS'])⟩
          have hncyc : ¬ Relation.TransGen (Edge g) n n := by
            intro hcyc
            obtain ⟨d, hd, hdn⟩ := (Relation.TransGen.head'_iff).mp hcyc
            have := (hgood' d (hblack' d hd)).1 n hdn
            exact this.2 (by simp)
          refine ⟨?_, ⟨hnV', hnS⟩, hgrowV⟩
          intro b hb
          by_cases hbn : b = n
          · subst hbn
            exact ⟨fun m hm => ⟨(hreachn m hm).1, (hreachn m hm).2⟩, hncyc⟩
          · have hbS2 : b ∉ S ++ [n] := by simp [hb.2, hbn]
            obtain ⟨hreach, hcyc⟩ := hgood' b ⟨hb.1, hbS2⟩
            refine ⟨?_, hcyc⟩
            intro m hm
            obtain ⟨hmV, hmS⟩ := hreach m hm
            exact ⟨hmV, fun hmS' => hmS (by simp [hmS'])⟩
      refine ⟨hvisit, ?_⟩
      intro ds
      induction ds with
      | nil =>
          intro V S V' hgood h
          simp only [visitList, Option.some.injEq, Prod.mk.injEq] at h
          obtain ⟨-, rfl⟩ := h
          exact ⟨hgood, by simp, fun x hx => hx⟩
      | cons d ds' ihds =>
          intro V S V' hgood h
          rw [visitList] at h
          cases hveq : visit g (f + 1) d V S with
          | none => rw [hveq] at h; exact absurd h (by simp)
          | some r =>
              rw [hveq] at h
              obtain ⟨rb, rV⟩ := r
              cases rb with
              | true => simp at h
              | false =>
                  obtain ⟨hgood1, hblack1, hgrow1⟩ := hvisit _ _ _ _ hgood hveq
                  obtain ⟨hgood2, hblack2, hgrow2⟩ := ihds _ _ _ hgood1 h
                  refine ⟨hgood2, ?_, fun x hx => hgrow2 x (hgrow1 x hx)⟩
                  intro d' hd'
                  rcases List.mem_cons.mp hd' with rfl | hd''
                  · exact ⟨hgrow2 d' hblack1.1, hblack1.2⟩
                  · exact hblack2 d' hd''

lemma detectCycleAux_some {g : Graph} :
    ∀ (ks V : List String) (k : String),
      detectCycleAux g ks V = some k → ReachesCycle g k := by
  intro ks
  induction ks with
  | nil => intro V k h; simp [detectCycleAux] at h
  | cons k0 ks' ih =>
      intro V k h
      rw [detectCycleAux] at h
      cases hveq : visit g (graphFuel g) k0 V [] with
      | none => rw [hveq] at h; exact absurd h (by simp)
      | some r =>
          rw [hveq] at h
          obtain ⟨rb, rV⟩ := r
          cases rb with
          | true =>
              simp only [Option.some.injEq] at h
              subst h
              exact (dfs_true g (graphFuel g)).1 k0 V [] rV
                (by simp) hveq
          | false => exact ih rV k h

lemma detectCycleAux_none {g : Graph} :
    ∀ (ks V : List String), V.Nodup → (∀ x ∈ V, x ∈ graphNodes g) →
      (∀ x ∈ ks, x ∈ graphNodes g) → Good g V [] →
      detectCycleAux g ks V = none →
      ∀ k ∈ ks, ¬ Relation.TransGen (Edge g) k k := by
  intro ks
  induction ks with
  | nil => intro V _ _ _ _ _ k hk; simp at hk
  | cons k0 ks' ih =>
      intro V hnd hsub hks hgood h
      have hk0 : k0 ∈ graphNodes g := hks k0 (by simp)
      have hfuel : (graphNodes g).dedup.length + 1 ≤ graphFuel g + V.length := by
        have := List.Sublist.length_le (List.dedup_sublist (graphNodes g))
        unfold graphFuel
        omega
      have hissome := (dfs_fuel g (graphFuel g)).1 k0 V [] hnd hsub hk0 hfuel
      rw [detectCycleAux] at h
      cases hveq : visit g (graphFuel g) k0 V [] with
      | none => rw [hveq] at hissome; exact absurd hissome (by simp)
      | some r =>
          rw [hveq] at h
          obtain ⟨rb, rV⟩ := r
          cases rb with
          | true => simp at h
          | false =>
              obtain ⟨hgood', hblack', hgrow'⟩ :=
                (dfs_false g (graphFuel g)).1 _ _ _ _ hgood hveq
              obtain ⟨hgrow, hndf, hnew⟩ :=
                (dfs_shape g (graphFuel g)).1 _ _ _ _ _ hveq
              intro k hk
              rcases List.mem_cons.mp hk with rfl | hk'
              · exact (hgood' k hblack').2
              · refine ih rV (hndf hnd) ?_ (fun x hx => hks x (by simp [hx]))
                  hgood' h k hk'
                intro x hx
                rcases hnew x hx with hx' | hx' | hx'
                · exact hsub x hx'
                · exact hx' ▸ hk0
                · exact hx'

/-- The thrown `CIRCULAR_DEPENDENCY_ERROR` names a field from which a
cycle is reachable. -/
lemma validateDependencyGraph_some {g : Graph} {k : String}
    (h : validateDependencyGraph g = some k) : ReachesCycle g k :=
  detectCycleAux_some (mapKeys g) [] k h

/-- `validateDependencyGraph` returns without a fault exactly on acyclic
graphs. -/
lemma validateDependencyGraph_eq_none_iff {g : Graph} :
    validateDependencyGraph g = none ↔ ¬ Cyclic g := by
  constructor
  · intro h hcyc
    obtain ⟨c, hc⟩ := hcyc
    obtain ⟨d, hd, -⟩ := (Relation.TransGen.head'_iff).mp hc
    have hck : c ∈ mapKeys g := edge_mem_keys hd
    exact detectCycleAux_none (mapKeys g) [] (by simp) (by simp)
      (fun x hx => mapKeys_subset_nodes hx) (good_nil g []) h c hck hc
  · intro h
    cases heq : validateDependencyGraph g with
    | none => rfl
    | some k =>
        obtain ⟨c, -, hcyc⟩ := validateDependencyGraph_some heq
        exact absurd ⟨c, hcyc⟩ h

/-- On a cyclic graph the DFS raises the circular-dependency fault. -/
lemma validateDependencyGraph_of_cyclic {g : Graph} (h : Cyclic g) :
    ∃ k, validateDependencyGraph g = some k ∧ ReachesCycle g k := by
  cases heq : validateDependencyGraph g with
  | none => exact absurd (validateDependencyGraph_eq_none_iff.mp heq) (by simpa using h)
  | some k => exact ⟨k, rfl, validateDependencyGraph_some heq⟩


/-! ### Concrete graph facts for the cycle counterexample -/

lemma cycGraph_eq : cycGraph = [("a", ["b"]), ("b", ["c"]), ("c", ["b"])] := rfl

lemma cyc_reach_b : ∀ m, Relation.ReflTransGen (Edge cycGraph) "b" m →
    m = "b" ∨ m = "c" := by
  intro m h
  induction h with
  | refl => exact Or.inl rfl
  | tail _ hstep ih =>
      rcases ih with rfl | rfl
      · unfold Edge at hstep
        rw [show graphGet cycGraph "b" = ["c"] from rfl] at hstep
        simp at hstep
        exact Or.inr hstep
      · unfold Edge at hstep
        rw [show graphGet cycGraph "c" = ["b"] from rfl] at hstep
        simp at hstep
        exact Or.inl hstep

lemma cyc_a_not_on_cycle : ¬ Relation.TransGen (Edge cycGraph) "a" "a" := by
  intro h
  obtain ⟨d, hd, hreach⟩ := (Relation.TransGen.head'_iff).mp h
  have hdm : d ∈ graphGet cycGraph "a" := hd
  rw [show graphGet cycGraph "a" = ["b"] from rfl] at hdm
  simp at hdm
  subst hdm
  rcases cyc_reach_b "a" hreach with h' | h' <;> exact absurd h' (by decide)

lemma cyc_cyclic : Cyclic cycGraph := by
  have h1 : Edge cycGraph "b" "c" := by unfold Edge; decide
  have h2 : Edge cycGraph "c" "b" := by unfold Edge; decide
  exact ⟨"b", Relation.TransGen.head h1 (Relation.TransGen.single h2)⟩

lemma scenarioB_graph_eq : buildDependencyGraph scenarioBFields = [("b", ["a"])] := rfl

lemma scenarioB_edge {x y : String}
    (h : Edge (buildDependencyGraph scenarioBFields) x y) : x = "b" ∧ y = "a" := by
  unfold Edge at h
  rw [scenarioB_graph_eq] at h
  by_cases hx : x = "b"
  · subst hx
    rw [show graphGet [("b", ["a"])] "b" = ["a"] from rfl] at h
    simp at h
    exact ⟨rfl, h⟩
  · exfalso
    have hnone : graphGet [("b", ["a"])] x = [] := by
      unfold graphGet mapGet?
      rw [List.find?_cons_of_neg, List.find?_nil]
      · rfl
      · simpa using fun hc => hx hc.symm
    rw [hnone] at h
    simp at h

lemma scenarioB_not_cyclic : ¬ Cyclic (buildDependencyGraph scenarioBFields) := by
  rintro ⟨c, h⟩
  obtain ⟨d, hd, hreach⟩ := (Relation.TransGen.head'_iff).mp h
  obtain ⟨rfl, rfl⟩ := scenarioB_edge hd
  rcases Relation.ReflTransGen.cases_head hreach with habs | ⟨e, he, -⟩
  · exact absurd habs (by decide)
  · exact absurd (scenarioB_edge he).1 (by decide)

lemma mutual_cyclic : Cyclic (buildDependencyGraph [mutualField1, mutualField2]) := by
  have h1 : Edge (buildDependencyGraph [mutualField1, mutualField2]) "field1" "field2" := by
    unfold Edge; decide
  have h2 : Edge (buildDependencyGraph [mutualField1, mutualField2]) "field2" "field1" := by
    unfold Edge; decide
  exact ⟨"field1", Relation.TransGen.head h1 (Relation.TransGen.single h2)⟩

/-- `parse` on a valid schema reduces to the dependency-resolution match. -/
lemma parse_valid_eq (s : FormSchema) (fields : List Field)
    (hf : s.fields = some fields)
    (hvalid : (validate (some s)).isValid = true) :
    parse (some s) =
      match resolveFieldDependencies fields with
      | .error e => .error e
      | .ok dependencies =>
          .ok { fields := parseFields fields
                validation := buildValidationSchema s.validation fields
                conditionalRules := extractConditionalRules fields
                dependencies := dependencies } := by
  simp only [parse]
  rw [hvalid]
  simp only [if_true]
  rw [hf]

/-! ### Claim C1 -/

/-- C1 (counterexample): the schema with fields `a`, `b`, `c` whose
dependency graph is `{a: [b], b: [c], c: [b]}` is structurally valid and
its conditional-rule dependencies form a cycle (`b → c → b`), yet
`resolveFieldDependencies` raises the circular-dependency fault naming
only `"a"`, and `"a"` lies on no cycle — so the fault does not name a
field id on the cycle, refuting the claim as stated. -/
theorem C1_counterexample :
    (validate (some cycSchema)).isValid = true ∧
    Cyclic cycGraph ∧
    resolveFieldDependencies cycFields = .error (.circularDependency "a") ∧
    ¬ Relation.TransGen (Edge cycGraph) "a" "a" := by
  refine ⟨rfl, cyc_cyclic, ?_, cyc_a_not_on_cycle⟩
  have hsome : validateDependencyGraph cycGraph = some "a" := by
    simp [validateDependencyGraph, detectCycleAux, visit, visitList, graphFuel,
          graphNodes, cycGraph, buildDependencyGraph, cycFields,
          extractFieldDependencies, conditionalRuleDependencies,
          addRuleDependencies, mapSet, mapGet?, mapKeys,
          graphGet, cycFieldA, cycFieldB, cycFieldC, ruleOnB, ruleOnC, List.find?]
  simp only [resolveFieldDependencies]
  rw [show buildDependencyGraph cycFields = cycGraph from rfl, hsome]

/-- C1 (amended): for every field list whose dependency graph is cyclic,
`resolveFieldDependencies` raises the circular-dependency fault naming a
field id from which the cycle is reachable (not necessarily a field on
the cycle), and `parse` propagates that fault on any valid schema carrying
those fields; for every field list whose dependency graph is acyclic,
`resolveFieldDependencies` returns the graph without raising the fault. -/
theorem C1_cycle_fault (fields : List Field) :
    (Cyclic (buildDependencyGraph fields) →
      ∃ k, resolveFieldDependencies fields = .error (.circularDependency k) ∧
        ReachesCycle (buildDependencyGraph fields) k) ∧
    (¬ Cyclic (buildDependencyGraph fields) →
      resolveFieldDependencies fields = .ok (buildDependencyGraph fields)) ∧
    (∀ s : FormSchema, s.fields = some fields →
      (validate (some s)).isValid = true →
      Cyclic (buildDependencyGraph fields) →
      ∃ k, parse (some s) = .error (.circularDependency k) ∧
        ReachesCycle (buildDependencyGraph fields) k) := by
  have hmain : Cyclic (buildDependencyGraph fields) →
      ∃ k, resolveFieldDependencies fields = .error (.circularDependency k) ∧
        ReachesCycle (buildDependencyGraph fields) k := by
    intro hcyc
    obtain ⟨k, hk, hreach⟩ := validateDependencyGraph_of_cyclic hcyc
    refine ⟨k, ?_, hreach⟩
    simp only [resolveFieldDependencies]
    rw [hk]
  refine ⟨hmain, ?_, ?_⟩
  · intro hacyc
    simp only [resolveFieldDependencies]
    rw [validateDependencyGraph_eq_none_iff.mpr hacyc]
  · intro s hf hvalid hcyc
    obtain ⟨k, hk, hreach⟩ := hmain hcyc
    refine ⟨k, ?_, hreach⟩
    rw [parse_valid_eq s fields hf hvalid, hk]

/-- C1 (witness): the amended theorem applied to the repository's own
two-field mutual cycle (fault raised, named field reaches the cycle) and
to the acyclic scenario-B schema (no fault). -/
theorem C1_cycle_fault_witness :
    (∃ k, resolveFieldDependencies [mutualField1, mutualField2] =
        .error (.circularDependency k) ∧
      ReachesCycle (buildDependencyGraph [mutualField1, mutualField2]) k) ∧
    resolveFieldDependencies scenarioBFields =
      .ok (buildDependencyGraph scenarioBFields) :=
  ⟨(C1_cycle_fault [mutualField1, mutualField2]).1 mutual_cyclic,
   (C1_cycle_fault scenarioBFields).2.1 scenarioB_not_cyclic⟩

/-! ### Claim C2 -/

/-- `validate` always reports validity as emptiness of its error list. -/
lemma validate_isValid_eq (x : Option FormSchema) :
    (validate x).isValid = (validate x).errors.isEmpty := by
  cases x with
  | none => rfl
  | some s => rfl

/-- The error list of `validate` on a schema whose `fields` is an array. -/
lemma validate_some_errors (s : FormSchema) (fields : List Field)
    (hf : s.fields = some fields) :
    (validate (some s)).errors =
      (if s.id = "" then ["Schema id is required"] else []) ++
        fieldsSectionErrors fields := by
  simp only [validate]
  rw [hf]

/-- The unknown-reference error produced for rule `i` of one rule list. -/
lemma unknown_ref_mem_ruleArray {ids : List String} {rs : List ConditionalRule}
    {name : String} {i : Nat} {r : ConditionalRule}
    (hi : rs[i]? = some r) (hne : r.field ≠ "") (hun : r.field ∉ ids) :
    (name ++ "[" ++ toString i ++ "].field references unknown field: " ++ r.field)
      ∈ validateRuleArray ids (some rs) name := by
  unfold validateRuleArray
  apply List.mem_flatten.mpr
  refine ⟨ruleErrors ids name i r, List.mem_map.mpr ⟨(i, r), ?_, rfl⟩, ?_⟩
  · exact List.mk_mem_enum_iff_getElem?.mpr hi
  · unfold ruleErrors
    have hcon : ids.contains r.field = false := by
      cases hb : ids.contains r.field with
      | false => rfl
      | true => exact absurd (List.elem_iff.mp hb) hun
    rw [if_neg hne, if_neg (by simpa using hun)]
    simp

/-- Errors of one of the five rule lists are reported by
`validateConditionalRules`. -/
lemma mem_validateConditionalRules {c : ConditionalConfig} {k : CondListKind}
    {ids : List String} {e : String}
    (he : e ∈ validateRuleArray ids (condListOf c k) (condListName k)) :
    e ∈ validateConditionalRules c ids := by
  unfold validateConditionalRules
  cases k <;> simp only [condListOf, condListName] at he <;>
    simp [List.mem_append, he]

/-- Conditional-rule errors of a member field are reported by `validate`. -/
lemma mem_validate_of_condError {s : FormSchema} {fields : List Field}
    {f : Field} {c : ConditionalConfig} {e : String}
    (hf : s.fields = some fields) (hmem : f ∈ fields)
    (hc : f.conditional = some c)
    (he : e ∈ validateConditionalRules c (collectIds fields)) :
    e ∈ (validate (some s)).errors := by
  rw [validate_some_errors s fields hf]
  apply List.mem_append_right
  unfold fieldsSectionErrors
  apply List.mem_append_right
  unfold condRefErrors
  apply List.mem_flatten.mpr
  refine ⟨validateConditionalRules c (collectIds fields), ?_, he⟩
  apply List.mem_map.mpr
  exact ⟨f, hmem, by rw [hc]⟩

/-- C2: a conditional rule in any of the five lists whose `field`
references an id absent from the schema's field ids makes `validate`
report the schema invalid, with the error
`conditional.<listName>[i].field references unknown field: <id>`. -/
theorem C2_unknown_reference (s : FormSchema) (fields : List Field)
    (f : Field) (c : ConditionalConfig) (k : CondListKind)
    (rs : List ConditionalRule) (i : Nat) (r : ConditionalRule)
    (hf : s.fields = some fields) (hmem : f ∈ fields)
    (hc : f.conditional = some c) (hk : condListOf c k = some rs)
    (hi : rs[i]? = some r) (hne : r.field ≠ "")
    (hunk : r.field ∉ fields.map (fun x => x.id)) :
    (validate (some s)).isValid = false ∧
    (condListName k ++ "[" ++ toString i ++ "].field references unknown field: "
      ++ r.field) ∈ (validate (some s)).errors := by
  have hun2 : r.field ∉ collectIds fields := by
    intro hmem2
    exact hunk (List.mem_of_mem_filter hmem2)
  have harr : (condListName k ++ "[" ++ toString i
      ++ "].field references unknown field: " ++ r.field)
      ∈ validateRuleArray (collectIds fields) (some rs) (condListName k) :=
    unknown_ref_mem_ruleArray hi hne hun2
  rw [← hk] at harr
  have hmemE := mem_validate_of_condError hf hmem hc
    (mem_validateConditionalRules harr)
  refine ⟨?_, hmemE⟩
  rw [validate_isValid_eq]
  cases h : (validate (some s)).errors with
  | nil => rw [h] at hmemE; simp at hmemE
  | cons a l => rfl

/-- C2 (witness): the unknown-reference theorem applied to the concrete
schema whose field `b` hides on the unknown field `zzz`. -/
theorem C2_unknown_reference_witness :
    (validate (some unknownRefSchema)).isValid = false ∧
    (condListName .hideList ++ "[" ++ toString 0
      ++ "].field references unknown field: " ++ ruleOnUnknown.field)
      ∈ (validate (some unknownRefSchema)).errors :=
  C2_unknown_reference unknownRefSchema [plainFieldA, unknownRefField]
    unknownRefField { hide := some [ruleOnUnknown] } .hideList
    [ruleOnUnknown] 0 ruleOnUnknown rfl (by simp) rfl rfl rfl
    (by decide) (by decide)

/-! ### Claim C9 -/

/-- C9 (counterexample): `validate` accepts the schema whose `fields`
member is the empty array, returning `isValid = true` with no errors —
refuting the claim that an empty fields array is reported invalid. -/
theorem C9_counterexample :
    emptyFieldsSchema.fields = some [] ∧
    validate (some emptyFieldsSchema) =
      { isValid := true, errors := [], warnings := [] } :=
  ⟨rfl, rfl⟩

/-- `validate` never produces warnings. -/
lemma validate_warnings (x : Option FormSchema) :
    (validate x).warnings = [] := by
  cases x <;> rfl

/-- C9 (amended): a schema whose `fields` is an empty array passes
`validate()` whenever its id is present; the fields-non-empty invariant
of the data model is not enforced by the validator. -/
theorem C9_empty_fields_accepted (s : FormSchema)
    (hf : s.fields = some []) (hid : s.id ≠ "") :
    validate (some s) = { isValid := true, errors := [], warnings := [] } := by
  have herr : (validate (some s)).errors = [] := by
    rw [validate_some_errors s [] hf, if_neg hid]
    rfl
  have hval : (validate (some s)).isValid = true := by
    rw [validate_isValid_eq, herr]
    rfl
  calc validate (some s)
      = ⟨(validate (some s)).isValid, (validate (some s)).errors,
         (validate (some s)).warnings⟩ := rfl
    _ = ⟨true, [], []⟩ := by rw [hval, herr, validate_warnings]

/-- C9 (witness): the amended theorem applied to the concrete empty-fields
schema. -/
theorem C9_empty_fields_accepted_witness :
    validate (some emptyFieldsSchema) =
      { isValid := true, errors := [], warnings := [] } :=
  C9_empty_fields_accepted emptyFieldsSchema rfl (by decide)

/-! ### Claim C8 -/

/-- Looking up the key just set finds the new value (`Map.set` then
`Map.get`). -/
lemma mapGet?_set_self {α : Type} (k : String) (v : α) :
    ∀ m : List (String × α), mapGet? (mapSet m k v) k = some v := by
  intro m
  induction m with
  | nil =>
      unfold mapSet mapGet?
      rw [if_neg (by simp)]
      simp only [List.nil_append]
      rw [List.find?_cons_of_pos _ (by simp)]
      rfl
  | cons p t ih =>
      unfold mapSet at ih ⊢
      by_cases hp : p.1 = k
      · rw [if_pos (by simp [hp])]
        simp only [List.map_cons, if_pos hp]
        unfold mapGet?
        rw [List.find?_cons_of_pos _ (by simp)]
        rfl
      · by_cases ht : t.any (fun q => q.1 = k)
        · rw [if_pos (by simp [hp, ht])]
          simp only [List.map_cons, if_neg hp]
          unfold mapGet?
          rw [List.find?_cons_of_neg _ (by simpa using hp)]
          have h2 := ih
          rw [if_pos ht] at h2
          exact h2
        · rw [if_neg (by simp [hp, ht])]
          unfold mapGet?
          rw [List.cons_append, List.find?_cons_of_neg _ (by simpa using hp)]
          have h2 := ih
          rw [if_neg (by simpa using ht)] at h2
          exact h2

/-- Replacing the entries keyed `k'` does not change lookups of `k ≠ k'`. -/
lemma mapGet?_map_replace {α : Type} {k k' : String} (hne : k ≠ k') (v : α) :
    ∀ m : List (String × α),
      mapGet? (m.map (fun p => if p.1 = k' then (k', v) else p)) k =
        mapGet? m k := by
  intro m
  induction m with
  | nil => rfl
  | cons p t ih =>
      simp only [List.map_cons]
      unfold mapGet?
      by_cases hp : p.1 = k
      · have hp' : p.1 ≠ k' := fun h => hne (hp ▸ h).symm.symm
        rw [if_neg hp']
        rw [List.find?_cons_of_pos _ (by simpa using hp),
            List.find?_cons_of_pos _ (by simpa using hp)]
      · by_cases hp2 : p.1 = k'
        · rw [if_pos hp2]
          rw [List.find?_cons_of_neg _ (by simpa using fun h => hne h.symm),
              List.find?_cons_of_neg _ (by simpa using hp)]
          unfold mapGet? at ih
          exact ih
        · rw [if_neg hp2]
          rw [List.find?_cons_of_neg _ (by simpa using hp),
              List.find?_cons_of_neg _ (by simpa using hp)]
          unfold mapGet? at ih
          exact ih

/-- Appending an entry keyed `k'` does not change lookups of `k ≠ k'`. -/
lemma mapGet?_append_ne {α : Type} {k k' : String} (hne : k ≠ k') (v : α) :
    ∀ m : List (String × α), mapGet? (m ++ [(k', v)]) k = mapGet? m k := by
  intro m
  induction m with
  | nil =>
      unfold mapGet?
      simp only [List.nil_append]
      rw [List.find?_cons_of_neg _ (by simpa using fun h => hne h.symm)]
  | cons p t ih =>
      unfold mapGet?
      rw [List.cons_append]
      by_cases hp : p.1 = k
      · rw [List.find?_cons_of_pos _ (by simpa using hp),
            List.find?_cons_of_pos _ (by simpa using hp)]
      · rw [List.find?_cons_of_neg _ (by simpa using hp),
            List.find?_cons_of_neg _ (by simpa using hp)]
        unfold mapGet? at ih
        exact ih

/-- Setting one key leaves lookups of other keys unchanged. -/
lemma mapGet?_set_ne {α : Type} {k k' : String} (hne : k ≠ k') (v : α)
    (m : List (String × α)) : mapGet? (mapSet m k' v) k = mapGet? m k := by
  unfold mapSet
  split_ifs with h
  · exact mapGet?_map_replace hne v m
  · exact mapGet?_append_ne hne v m

/-- C8: in the field-type registry the last registration for a type tag
wins; after registering a renderer for `"text"` and clearing the registry,
looking up `"text"` returns absent; and rendering a field whose type has
no registered renderer produces the unsupported-type placeholder carrying
that field's id and type. -/
theorem C8_registry_contract (C : Type) (reg : Registry C) (t : String)
    (c1 c2 : C) (f : Field) :
    registryGet (registryRegister (registryRegister reg t c1) t c2) t = some c2 ∧
    registryGet (registryClear (registryRegister reg "text" c1)) "text" = none ∧
    (registryGet reg f.type_ = none →
      renderField reg f = .unsupportedPlaceholder f.id f.type_) := by
  refine ⟨mapGet?_set_self t c2 _, rfl, ?_⟩
  intro h
  unfold renderField
  rw [show registryGet reg f.type_ = none from h]

/-- C8 (witness): the registry contract at a concrete two-registration
sequence over `Nat` components and the unregistered scenario-A field. -/
theorem C8_registry_contract_witness :
    registryGet (registryRegister (registryRegister ([] : Registry Nat)
      "text" 1) "text" 2) "text" = some 2 ∧
    registryGet (registryClear (registryRegister ([] : Registry Nat)
      "text" 1)) "text" = none ∧
    renderField ([] : Registry Nat) nameField =
      .unsupportedPlaceholder "name" "text" := by
  obtain ⟨h1, h2, h3⟩ := C8_registry_contract Nat [] "text" 1 2 nameField
  exact ⟨h1, h2, h3 rfl⟩

/-! ### Form-controller validation lemmas -/

/-- The loop's validity flag is the conjunction of the per-field
required checks. -/
lemma validateFormAux_fst (values : ValueMap) :
    ∀ (fields : List Field) (acc : Bool × ErrorMap),
      (validateFormAux values fields acc).1 =
        (acc.1 && fields.all (fun f => !(f.required && (getVal values f.id).falsy))) := by
  intro fields
  induction fields with
  | nil => intro acc; simp [validateFormAux]
  | cons f rest ih =>
      intro acc
      unfold validateFormAux
      rw [ih]
      have hemp : (if f.required && (getVal values f.id).falsy
          then [f.label ++ " is required"] else []).isEmpty =
          !(f.required && (getVal values f.id).falsy) := by
        cases h : f.required && (getVal values f.id).falsy <;> simp [h]
      simp only [hemp, List.all_cons]
      rw [Bool.and_assoc]

/-- The loop never touches error keys outside its field ids. -/
lemma validateFormAux_untouched (values : ValueMap) :
    ∀ (fields : List Field) (acc : Bool × ErrorMap) (k : String),
      k ∉ fields.map (fun f => f.id) →
      mapGet? (validateFormAux values fields acc).2 k = mapGet? acc.2 k := by
  intro fields
  induction fields with
  | nil => intro acc k _; rfl
  | cons f rest ih =>
      intro acc k hk
      have hk1 : k ≠ f.id := by
        intro h
        exact hk (by simp [h])
      have hk2 : k ∉ rest.map (fun f => f.id) := by
        intro h
        exact hk (by simp [h])
      unfold validateFormAux
      rw [ih _ _ hk2]
      by_cases h : (if f.required && (getVal values f.id).falsy
          then [f.label ++ " is required"] else []).isEmpty
      · rw [if_pos h]
      · rw [if_neg h]
        exact mapGet?_set_ne hk1 _ _

/-- The error entry the loop produces for a member field with a unique
id: exactly the required-field message when the value is falsy, absent
otherwise. -/
lemma validateFormAux_lookup (values : ValueMap) :
    ∀ (fields : List Field) (acc : Bool × ErrorMap) (f : Field),
      f ∈ fields → (fields.map (fun x => x.id)).Nodup →
      mapGet? acc.2 f.id = none →
      mapGet? (validateFormAux values fields acc).2 f.id =
        (if f.required && (getVal values f.id).falsy
         then some [f.label ++ " is required"] else none) := by
  intro fields
  induction fields with
  | nil => intro acc f hmem; simp at hmem
  | cons g rest ih =>
      intro acc f hmem hnd hacc
      have hnd' : (g.id :: rest.map (fun x => x.id)).Nodup := by simpa using hnd
      have hgrest : g.id ∉ rest.map (fun x => x.id) := (List.nodup_cons.mp hnd').1
      have hndrest : (rest.map (fun x => x.id)).Nodup := (List.nodup_cons.mp hnd').2
      rcases List.mem_cons.mp hmem with rfl | hmem'
      · unfold validateFormAux
        rw [validateFormAux_untouched values rest _ f.id hgrest]
        by_cases h : f.required && (getVal values f.id).falsy
        · rw [if_pos h, if_pos h]
          simp only [List.isEmpty_cons, Bool.false_eq_true, if_false]
          exact mapGet?_set_self f.id _ _
        · rw [if_neg h, if_neg h]
          simpa using hacc
      · have hne : f.id ≠ g.id := by
          intro h
          apply hgrest
          rw [← h]
          exact List.mem_map.mpr ⟨f, hmem', rfl⟩
        unfold validateFormAux
        apply ih _ f hmem' hndrest
        by_cases h : (if g.required && (getVal values g.id).falsy
            then [g.label ++ " is required"] else []).isEmpty
        · rw [if_pos h]
          exact hacc
        · rw [if_neg h]
          rw [mapGet?_set_ne hne _ _]
          exact hacc

/-- JavaScript falsiness on form values is exactly the five-value
enumeration of the claim. -/
lemma falsy_iff (v : Value) :
    v.falsy = true ↔ (v = .absent ∨ v = .vnull ∨ v = .str "" ∨
      v = .num 0 ∨ v = .bool false) := by
  cases v <;> simp [Value.falsy]

/-! ### Claim C3 -/

/-- C3: for a required field with a unique id, validation of empty
(falsy) values reports `isValid = false` with the error entry
`<label> is required` for that field, validation after the field is
filled (truthy) yields no entry for it, and on the concrete scenario-A
schema `validate()` with `values = {}` returns
`{isValid: false, errors: {name: ["Name is required"]}}`. -/
theorem C3_required_field_validation (fields : List Field)
    (values : ValueMap) (f : Field) (hmem : f ∈ fields)
    (hnd : (fields.map (fun x => x.id)).Nodup) (hreq : f.required = true) :
    ((getVal values f.id).falsy = true →
      (validateForm fields values).1 = false ∧
      mapGet? (validateForm fields values).2 f.id =
        some [f.label ++ " is required"]) ∧
    ((getVal values f.id).falsy = false →
      mapGet? (validateForm fields values).2 f.id = none) ∧
    validateForm [nameField] [] = (false, [("name", ["Name is required"])]) := by
  refine ⟨?_, ?_, rfl⟩
  · intro hfal
    constructor
    · unfold validateForm
      rw [validateFormAux_fst]
      simp only [Bool.true_and]
      apply List.all_eq_false.mpr
      exact ⟨f, hmem, by simp [hreq, hfal]⟩
    · unfold validateForm
      rw [validateFormAux_lookup values fields (true, []) f hmem hnd rfl]
      rw [if_pos (by simp [hreq, hfal])]
  · intro hfal
    unfold validateForm
    rw [validateFormAux_lookup values fields (true, []) f hmem hnd rfl]
    rw [if_neg (by simp [hfal])]

/-- C3 (witness): the required-field theorem applied to scenario A with
empty values and with the name filled. -/
theorem C3_required_field_validation_witness :
    ((validateForm [nameField] []).1 = false ∧
      mapGet? (validateForm [nameField] []).2 nameField.id =
        some [nameField.label ++ " is required"]) ∧
    mapGet? (validateForm [nameField] [("name", .str "John")]).2 nameField.id = none := by
  refine ⟨(C3_required_field_validation [nameField] [] nameField (by simp)
    (by simp) rfl).1 rfl, ?_⟩
  exact (C3_required_field_validation [nameField] [("name", .str "John")]
    nameField (by simp) (by simp) rfl).2.1 rfl

/-! ### Claim C10 -/

/-- C10: the controller's required check treats exactly the falsy values
as empty — for a required field with a unique id, the `<label> is
required` entry is produced precisely when the current value is absent,
null, the empty string, the number 0, or the boolean false. -/
theorem C10_falsy_required_check (fields : List Field) (values : ValueMap)
    (f : Field) (hmem : f ∈ fields)
    (hnd : (fields.map (fun x => x.id)).Nodup) (hreq : f.required = true) :
    (∃ l, mapGet? (validateForm fields values).2 f.id = some l ∧
        (f.label ++ " is required") ∈ l) ↔
      (getVal values f.id = .absent ∨ getVal values f.id = .vnull ∨
       getVal values f.id = .str "" ∨ getVal values f.id = .num 0 ∨
       getVal values f.id = .bool false) := by
  rw [← falsy_iff]
  unfold validateForm
  rw [validateFormAux_lookup values fields (true, []) f hmem hnd rfl]
  constructor
  · intro ⟨l, hl, hmeml⟩
    by_cases h : f.required && (getVal values f.id).falsy
    · have h2 : f.required = true ∧ (getVal values f.id).falsy = true := by
        simpa using h
      exact h2.2
    · rw [if_neg h] at hl
      exact absurd hl (by simp)
  · intro h
    refine ⟨[f.label ++ " is required"], ?_, by simp⟩
    rw [if_pos (by simp [hreq, h])]

/-- C10 (witness): a required checkbox whose value is `false` receives
the required error (it can never pass validation), while the same
checkbox set to `true` does not. -/
theorem C10_falsy_required_check_witness :
    (∃ l, mapGet? (validateForm [requiredCheckbox]
        [("agree", .bool false)]).2 requiredCheckbox.id = some l ∧
      (requiredCheckbox.label ++ " is required") ∈ l) ∧
    ¬ (∃ l, mapGet? (validateForm [requiredCheckbox]
        [("agree", .bool true)]).2 requiredCheckbox.id = some l ∧
      (requiredCheckbox.label ++ " is required") ∈ l) := by
  constructor
  · exact (C10_falsy_required_check [requiredCheckbox] [("agree", .bool false)]
      requiredCheckbox (by simp) (by simp) rfl).mpr
      (Or.inr (Or.inr (Or.inr (Or.inr rfl))))
  · intro hex
    have := (C10_falsy_required_check [requiredCheckbox] [("agree", .bool true)]
      requiredCheckbox (by simp) (by simp) rfl).mp hex
    simp [getVal, mapGet?, List.find?, requiredCheckbox] at this

/-! ### Claims C4 and C5 -/

/-- Every transition leaves the construction-time data (the schema's
fields and the captured initial-values snapshot) unchanged. -/
lemma applyAction_preserves (c : Controller) (a : Action) :
    (applyAction c a).1.schemaFields = c.schemaFields ∧
    (applyAction c a).1.initialValues = c.initialValues := by
  cases a with
  | change id v => exact ⟨rfl, rfl⟩
  | blur fieldId => exact ⟨rfl, rfl⟩
  | validate => exact ⟨rfl, rfl⟩
  | submitStart =>
      simp only [applyAction, stepSubmitStart]
      split_ifs <;> exact ⟨rfl, rfl⟩
  | submitFinish => exact ⟨rfl, rfl⟩
  | reset => exact ⟨rfl, rfl⟩

/-- Sequencing preserves the construction-time data as well. -/
lemma applyActions_preserves :
    ∀ (acts : List Action) (c : Controller),
      (applyActions c acts).1.schemaFields = c.schemaFields ∧
      (applyActions c acts).1.initialValues = c.initialValues := by
  intro acts
  induction acts with
  | nil => intro c; exact ⟨rfl, rfl⟩
  | cons a as ih =>
      intro c
      obtain ⟨h1, h2⟩ := ih (applyAction c a).1
      obtain ⟨g1, g2⟩ := applyAction_preserves c a
      constructor
      · show (applyActions (applyAction c a).1 as).1.schemaFields = c.schemaFields
        rw [h1, g1]
      · show (applyActions (applyAction c a).1 as).1.initialValues = c.initialValues
        rw [h2, g2]

/-- C4: after any sequence of change/blur/validate transitions, `reset`
restores `values` to the initial-values snapshot captured at
construction, empties `errors` and `touched`, clears `hasSubmitted` and
`isSubmitting`, sets `isDirty` to `false`, sets `isValid` to `true`
(without re-validating — the result is `true` whatever the values), and
fires exactly the external `reset` callback. -/
theorem C4_reset_restores_snapshot (c : Controller) (acts : List Action)
    (hacts : ∀ a ∈ acts, a.isUserEdit) :
    (applyAction (applyActions c acts).1 .reset).1.values = c.initialValues ∧
    (applyAction (applyActions c acts).1 .reset).1.errors = [] ∧
    (applyAction (applyActions c acts).1 .reset).1.touched = [] ∧
    (applyAction (applyActions c acts).1 .reset).1.isSubmitting = false ∧
    (applyAction (applyActions c acts).1 .reset).1.isDirty = false ∧
    (applyAction (applyActions c acts).1 .reset).1.isValid = true ∧
    (applyAction (applyActions c acts).1 .reset).1.hasSubmitted = false ∧
    (applyAction (applyActions c acts).1 .reset).2 = [Ev.resetCb] := by
  refine ⟨?_, rfl, rfl, rfl, rfl, rfl, rfl, rfl⟩
  show (applyActions c acts).1.initialValues = c.initialValues
  exact (applyActions_preserves acts c).2

/-- C4 (witness): the reset theorem applied to the filled controller
after a concrete change/blur/validate sequence. -/
theorem C4_reset_restores_snapshot_witness :
    (applyAction (applyActions filledController
      [.change "name" (.str "x"), .blur "name", .validate]).1 .reset).1.values =
        filledController.initialValues ∧
    (applyAction (applyActions filledController
      [.change "name" (.str "x"), .blur "name", .validate]).1 .reset).1.isDirty = false := by
  obtain ⟨h1, -, -, -, h5, -⟩ := C4_reset_restores_snapshot filledController
    [.change "name" (.str "x"), .blur "name", .validate]
    (by intro a ha; simp at ha; rcases ha with rfl | rfl | rfl <;> trivial)
  exact ⟨h1, h5⟩

/-- C5: `submit()` is guarded by the in-flight flag — a `submit` arriving
while `isSubmitting` is `true` is a no-op (no state change, no
callbacks), and two rapid `submit` calls with the first unresolved yield
exactly one external `submit` callback invocation when the form is
valid. -/
theorem C5_submit_in_flight_guard (c : Controller) :
    (c.isSubmitting = true → applyAction c .submitStart = (c, [])) ∧
    (c.isSubmitting = false →
      (validateForm c.schemaFields c.values).1 = true →
      countSubmitCb (applyActions c
        [.submitStart, .submitStart, .submitFinish]).2 = 1) := by
  constructor
  · intro h
    simp [applyAction, stepSubmitStart, h]
  · intro h hv
    simp [applyActions, applyAction, stepSubmitStart, stepSubmitFinish,
          h, hv, countSubmitCb]

/-- C5 (witness): the guard theorem at the filled (valid) controller —
double submission fires the callback once — and at its in-flight
variant, where a second `submit` is a no-op. -/
theorem C5_submit_in_flight_guard_witness :
    countSubmitCb (applyActions filledController
      [.submitStart, .submitStart, .submitFinish]).2 = 1 ∧
    applyAction { filledController with isSubmitting := true } .submitStart =
      ({ filledController with isSubmitting := true }, []) :=
  ⟨(C5_submit_in_flight_guard filledController).2 rfl rfl,
   (C5_submit_in_flight_guard _).1 rfl⟩

/-! ### Claim C6: dependency-graph characterization -/

lemma indexOf_getElem_le (l : List String) :
    ∀ (i : Nat) (h : i < l.length), l.indexOf l[i] ≤ i := by
  induction l with
  | nil => intro i h; simp at h
  | cons a t ih =>
      intro i h
      cases i with
      | zero => simp
      | succ j =>
          have hj : j < t.length := by simpa using h
          have : (a :: t)[j + 1] = t[j] := by simp
          rw [this, List.indexOf_cons]
          cases hb : a == t[j] with
          | true => simp
          | false =>
              simp only [cond_false]
              have := ih j hj
              omega

lemma duplicateIds_eq_nil_iff (l : List String) :
    duplicateIds l = [] ↔ l.Nodup := by
  unfold duplicateIds
  rw [List.map_eq_nil_iff, List.filter_eq_nil_iff]
  constructor
  · intro h
    rw [List.nodup_iff_injective_get]
    intro i j hij
    have hi : (↑i, l.get i) ∈ l.enum :=
      List.mk_mem_enum_iff_getElem?.mpr (by simp [List.getElem?_eq_getElem])
    have hj : (↑j, l.get j) ∈ l.enum :=
      List.mk_mem_enum_iff_getElem?.mpr (by simp [List.getElem?_eq_getElem])
    have hi' : l.indexOf (l.get i) = ↑i := by simpa using h _ hi
    have hj' : l.indexOf (l.get j) = ↑j := by simpa using h _ hj
    have : (↑i : Nat) = ↑j := by rw [← hi', ← hj', hij]
    exact Fin.ext this
  · intro hnd p hp
    obtain ⟨i, x⟩ := p
    have hx : l[i]? = some x := List.mk_mem_enum_iff_getElem?.mp hp
    have hilen : i < l.length := by
      by_contra hlen
      rw [List.getElem?_eq_none (by omega)] at hx
      simp at hx
    have hxe : l[i] = x := by
      have := List.getElem?_eq_getElem hilen
      rw [this] at hx
      exact Option.some.inj hx
    have hle : l.indexOf x ≤ i := hxe ▸ indexOf_getElem_le l i hilen
    have hmem : x ∈ l := hxe ▸ List.getElem_mem hilen
    have hlt : l.indexOf x < l.length := List.indexOf_lt_length.mpr hmem
    have hget : l[l.indexOf x] = x := List.getElem_indexOf hlt
    have : l.indexOf x = i := by
      have hinj := List.nodup_iff_injective_get.mp hnd
      have heq : l.get ⟨l.indexOf x, hlt⟩ = l.get ⟨i, hilen⟩ := by
        simp [List.get_eq_getElem, hget, hxe]
      simpa using congrArg Fin.val (hinj heq)
    simp [this]

/-- On a valid schema every field id is present and the ids are unique. -/
lemma validate_isValid_ids (s : FormSchema) (fields : List Field)
    (hf : s.fields = some fields) (hv : (validate (some s)).isValid = true) :
    (∀ f ∈ fields, f.id ≠ "") ∧ (fields.map (fun f => f.id)).Nodup := by
  have herr : (validate (some s)).errors = [] := by
    rw [validate_isValid_eq] at hv
    exact List.isEmpty_iff.mp hv
  rw [validate_some_errors s fields hf] at herr
  obtain ⟨-, hsect⟩ := List.append_eq_nil.mp herr
  unfold fieldsSectionErrors at hsect
  obtain ⟨hperdup, -⟩ := List.append_eq_nil.mp hsect
  obtain ⟨hper, hdup⟩ := List.append_eq_nil.mp hperdup
  have hids : ∀ f ∈ fields, f.id ≠ "" := by
    intro f hmem hid
    obtain ⟨i, hi, hget⟩ := List.mem_iff_getElem.mp hmem
    have henum : (i, f) ∈ fields.enum :=
      List.mk_mem_enum_iff_getElem?.mpr (by rw [List.getElem?_eq_getElem hi, hget])
    have hfe : fieldErrors i f = [] := by
      unfold perFieldErrors at hper
      rw [List.flatten_eq_nil_iff] at hper
      exact hper _ (List.mem_map.mpr ⟨(i, f), henum, rfl⟩)
    unfold fieldErrors at hfe
    rw [if_pos hid] at hfe
    simp at hfe
  refine ⟨hids, ?_⟩
  have hcoll : collectIds fields = fields.map (fun f => f.id) := by
    unfold collectIds
    apply List.filter_eq_self.mpr
    intro a ha
    obtain ⟨f, hfm, rfl⟩ := List.mem_map.mp ha
    simpa using hids f hfm
  unfold dupIdErrors at hdup
  by_cases hde : (duplicateIds (collectIds fields)).isEmpty
  · have : duplicateIds (collectIds fields) = [] := List.isEmpty_iff.mp hde
    rw [hcoll] at this
    exact (duplicateIds_eq_nil_iff _).mp this
  · rw [if_neg hde] at hdup
    simp at hdup

lemma addRuleDependencies_mem (rules : Option (List ConditionalRule)) :
    ∀ (deps : List String) (x : String),
      x ∈ addRuleDependencies deps rules ↔
        x ∈ deps ∨ (x ≠ "" ∧ ∃ r ∈ rules.getD [], r.field = x) := by
  cases rules with
  | none => intro deps x; simp [addRuleDependencies]
  | some rs =>
      simp only [addRuleDependencies, Option.getD_some]
      induction rs with
      | nil => intro deps x; simp
      | cons r rest ih =>
          intro deps x
          simp only [List.foldl_cons]
          rw [ih]
          by_cases hc : r.field ≠ "" && !deps.contains r.field
          · rw [if_pos hc]
            have hc' : r.field ≠ "" := by
              have h2 := hc
              simp only [Bool.and_eq_true, decide_eq_true_iff] at h2
              exact h2.1
            have himp : x = r.field → x ≠ "" := fun h => h ▸ hc'
            simp only [List.mem_append, List.mem_singleton, List.mem_cons,
              exists_eq_or_imp]
            have hsymm : r.field = x ↔ x = r.field := eq_comm
            rw [hsymm]
            tauto
          · rw [if_neg hc]
            have hcon : r.field = "" ∨ r.field ∈ deps := by
              by_cases h1 : r.field = ""
              · exact Or.inl h1
              · right
                by_contra h2
                exact hc (by simp [h1, h2])
            have himp : x ≠ "" → r.field = x → x ∈ deps := fun hne he =>
              hcon.elim (fun h => absurd (he ▸ h) hne) (fun h => he ▸ h)
            simp only [List.mem_cons, exists_eq_or_imp]
            tauto

lemma addRuleDependencies_nodup (rules : Option (List ConditionalRule)) :
    ∀ deps : List String, deps.Nodup → (addRuleDependencies deps rules).Nodup := by
  cases rules with
  | none => intro deps h; simpa [addRuleDependencies] using h
  | some rs =>
      simp only [addRuleDependencies, Option.getD_some]
      induction rs with
      | nil => intro deps h; simpa using h
      | cons r rest ih =>
          intro deps h
          simp only [List.foldl_cons]
          by_cases hc : r.field ≠ "" && !deps.contains r.field
          · rw [if_pos hc]
            apply ih
            have hnm : r.field ∉ deps := by
              have := hc
              simp only [Bool.and_eq_true, Bool.not_eq_true',
                decide_eq_true_iff] at this
              simpa using this.2
            simp [List.nodup_append, h, hnm]
          · rw [if_neg hc]
            exact ih deps h

lemma dynFold_mem (l : List String) :
    ∀ (deps : List String) (x : String),
      x ∈ l.foldl (fun acc d => if acc.contains d then acc else acc ++ [d]) deps ↔
        x ∈ deps ∨ x ∈ l := by
  induction l with
  | nil => intro deps x; simp
  | cons d rest ih =>
      intro deps x
      simp only [List.foldl_cons]
      rw [ih]
      by_cases hc : deps.contains d
      · rw [if_pos hc]
        have himp : x = d → x ∈ deps := fun h => h ▸ (by simpa using hc)
        simp only [List.mem_cons]
        tauto
      · rw [if_neg hc]
        simp only [List.mem_append, List.mem_singleton, List.mem_cons]
        tauto

lemma dynFold_nodup (l : List String) :
    ∀ deps : List String, deps.Nodup →
      (l.foldl (fun acc d => if acc.contains d then acc else acc ++ [d]) deps).Nodup := by
  induction l with
  | nil => intro deps h; simpa using h
  | cons d rest ih =>
      intro deps h
      simp only [List.foldl_cons]
      by_cases hc : deps.contains d
      · rw [if_pos hc]
        exact ih deps h
      · rw [if_neg hc]
        apply ih
        have : d ∉ deps := by simpa using hc
        simp [List.nodup_append, h, this]

/-- The DFS-independent reformulation of `extractFieldDependencies`:
fold the dynamic-option dependencies over the conditional-rule part. -/
lemma extract_eq_dynFold (f : Field) :
    extractFieldDependencies f =
      (dynamicOptionDependencies f).foldl
        (fun acc d => if acc.contains d then acc else acc ++ [d])
        (conditionalRuleDependencies f) := by
  unfold extractFieldDependencies dynamicOptionDependencies
  by_cases hty : f.type_ = "select" || f.type_ = "multiselect"
  · rw [if_pos hty, if_pos (by simpa using hty)]
    cases f.options with
    | none => rfl
    | some o =>
        cases o with
        | staticList opts => rfl
        | dynamic cfg =>
            cases h : cfg.dependencies with
            | none => simp [h]
            | some l => simp [h]
  · rw [if_neg hty, if_neg (by simpa using hty)]
    rfl

lemma exists_mem_append {P : ConditionalRule → Prop}
    (A B : List ConditionalRule) :
    (∃ r ∈ A ++ B, P r) ↔ (∃ r ∈ A, P r) ∨ (∃ r ∈ B, P r) := by
  constructor
  · rintro ⟨r, hr, hp⟩
    rcases List.mem_append.mp hr with h | h
    · exact Or.inl ⟨r, h, hp⟩
    · exact Or.inr ⟨r, h, hp⟩
  · rintro (⟨r, hr, hp⟩ | ⟨r, hr, hp⟩)
    · exact ⟨r, List.mem_append.mpr (Or.inl hr), hp⟩
    · exact ⟨r, List.mem_append.mpr (Or.inr hr), hp⟩

lemma conditionalRuleDependencies_mem (f : Field) (x : String) :
    x ∈ conditionalRuleDependencies f ↔
      (x ≠ "" ∧ ∃ r ∈ extractFieldConditionalRules f, r.field = x) := by
  unfold conditionalRuleDependencies extractFieldConditionalRules
  cases f.conditional with
  | none => simp
  | some c =>
      rw [addRuleDependencies_mem, addRuleDependencies_mem,
          addRuleDependencies_mem, addRuleDependencies_mem,
          addRuleDependencies_mem]
      rw [exists_mem_append, exists_mem_append, exists_mem_append,
          exists_mem_append]
      simp only [List.mem_nil_iff, false_or]
      rw [and_or_left, and_or_left, and_or_left, and_or_left]

lemma conditionalRuleDependencies_nodup (f : Field) :
    (conditionalRuleDependencies f).Nodup := by
  unfold conditionalRuleDependencies
  cases f.conditional with
  | none => simp
  | some c =>
      apply addRuleDependencies_nodup
      apply addRuleDependencies_nodup
      apply addRuleDependencies_nodup
      apply addRuleDependencies_nodup
      apply addRuleDependencies_nodup
      simp

/-- Membership in a field's extracted dependency list: exactly the
(non-empty) field ids referenced by its five conditional rule lists plus
the dynamic-option dependency declarations. -/
lemma extractFieldDependencies_mem (f : Field) (x : String) :
    x ∈ extractFieldDependencies f ↔
      ((x ≠ "" ∧ ∃ r ∈ extractFieldConditionalRules f, r.field = x) ∨
        x ∈ dynamicOptionDependencies f) := by
  rw [extract_eq_dynFold, dynFold_mem, conditionalRuleDependencies_mem]

/-- The extracted dependency list is deduplicated. -/
lemma extractFieldDependencies_nodup (f : Field) :
    (extractFieldDependencies f).Nodup := by
  rw [extract_eq_dynFold]
  exact dynFold_nodup _ _ (conditionalRuleDependencies_nodup f)

lemma mapGet?_eq_none_of_not_mem {α : Type} {m : List (String × α)}
    {k : String} (h : k ∉ mapKeys m) : mapGet? m k = none := by
  unfold mapGet?
  rw [List.find?_eq_none.mpr]
  · rfl
  · intro p hp
    simp only [decide_eq_true_iff]
    intro he
    exact h (List.mem_map.mpr ⟨p, hp, he⟩)

lemma mapSet_append_of_not_mem {α : Type} {m : List (String × α)}
    {k : String} (v : α) (h : k ∉ mapKeys m) : mapSet m k v = m ++ [(k, v)] := by
  unfold mapSet
  rw [if_neg]
  intro hany
  obtain ⟨p, hp, he⟩ := List.any_eq_true.mp hany
  exact h (List.mem_map.mpr ⟨p, hp, by simpa using he⟩)

lemma buildGraph_go :
    ∀ (fields : List Field) (g : Graph),
      (∀ f ∈ fields, f.id ∉ mapKeys g) →
      (fields.map (fun f => f.id)).Nodup →
      fields.foldl (fun g f =>
        let fieldDeps := extractFieldDependencies f
        if fieldDeps.isEmpty then g else mapSet g f.id fieldDeps) g =
      g ++ (fields.filter (fun f => !(extractFieldDependencies f).isEmpty)).map
        (fun f => (f.id, extractFieldDependencies f)) := by
  intro fields
  induction fields with
  | nil => intro g _ _; simp
  | cons f rest ih =>
      intro g hkeys hnd
      have hnd' : (f.id :: rest.map (fun x => x.id)).Nodup := by simpa using hnd
      have hfrest : f.id ∉ rest.map (fun x => x.id) := (List.nodup_cons.mp hnd').1
      have hndrest : (rest.map (fun x => x.id)).Nodup := (List.nodup_cons.mp hnd').2
      simp only [List.foldl_cons]
      by_cases he : (extractFieldDependencies f).isEmpty
      · rw [if_pos he]
        rw [ih g (fun f' hf' => hkeys f' (by simp [hf'])) hndrest]
        have : (List.filter (fun f => !(extractFieldDependencies f).isEmpty)
            (f :: rest)) = List.filter (fun f => !(extractFieldDependencies f).isEmpty) rest := by
          rw [List.filter_cons_of_neg (by simp [he])]
        rw [this]
      · rw [if_neg he]
        rw [mapSet_append_of_not_mem _ (hkeys f (by simp))]
        rw [ih (g ++ [(f.id, extractFieldDependencies f)]) ?hk hndrest]
        case hk =>
          intro f' hf'
          simp only [mapKeys, List.map_append, List.mem_append]
          rintro (h1 | h1)
          · exact hkeys f' (by simp [hf']) h1
          · simp only [List.map_cons, List.map_nil, List.mem_singleton] at h1
            exact hfrest (h1 ▸ List.mem_map.mpr ⟨f', hf', rfl⟩)
        rw [List.filter_cons_of_pos (by simp [he])]
        simp [List.append_assoc]

/-- The dependency graph is the ordered association of each
non-empty-dependency field with its extracted dependencies. -/
lemma buildDependencyGraph_eq (fields : List Field)
    (hnd : (fields.map (fun f => f.id)).Nodup) :
    buildDependencyGraph fields =
      (fields.filter (fun f => !(extractFieldDependencies f).isEmpty)).map
        (fun f => (f.id, extractFieldDependencies f)) := by
  unfold buildDependencyGraph
  simpa using buildGraph_go fields [] (by simp [mapKeys]) hnd

lemma graphGet_filterMap :
    ∀ (fields : List Field), (fields.map (fun f => f.id)).Nodup →
      ∀ f ∈ fields,
      graphGet ((fields.filter (fun x => !(extractFieldDependencies x).isEmpty)).map
        (fun x => (x.id, extractFieldDependencies x))) f.id =
        extractFieldDependencies f := by
  intro fields
  induction fields with
  | nil => intro _ f hmem; simp at hmem
  | cons f0 rest ih =>
      intro hnd f hmem
      have hnd' : (f0.id :: rest.map (fun x => x.id)).Nodup := by simpa using hnd
      have hfrest : f0.id ∉ rest.map (fun x => x.id) := (List.nodup_cons.mp hnd').1
      have hndrest : (rest.map (fun x => x.id)).Nodup := (List.nodup_cons.mp hnd').2
      rcases List.mem_cons.mp hmem with rfl | hmem'
      · by_cases he : (extractFieldDependencies f).isEmpty
        · rw [List.filter_cons_of_neg (by simp [he])]
          have hnk : f.id ∉ mapKeys ((rest.filter
              (fun x => !(extractFieldDependencies x).isEmpty)).map
              (fun x => (x.id, extractFieldDependencies x))) := by
            intro hk
            unfold mapKeys at hk
            rw [List.map_map] at hk
            obtain ⟨f', hf', he'⟩ := List.mem_map.mp hk
            exact hfrest (he' ▸
              List.mem_map.mpr ⟨f', List.mem_of_mem_filter hf', rfl⟩)
          unfold graphGet
          rw [mapGet?_eq_none_of_not_mem hnk]
          rw [List.isEmpty_iff.mp he]
          rfl
        · rw [List.filter_cons_of_pos (by simp [he])]
          unfold graphGet mapGet?
          simp only [List.map_cons]
          rw [List.find?_cons_of_pos _ (by simp)]
          rfl
      · have hne : f.id ≠ f0.id := fun h =>
          hfrest (h ▸ List.mem_map.mpr ⟨f, hmem', rfl⟩)
        by_cases he : (extractFieldDependencies f0).isEmpty
        · rw [List.filter_cons_of_neg (by simp [he])]
          exact ih hndrest f hmem'
        · rw [List.filter_cons_of_pos (by simp [he])]
          unfold graphGet mapGet?
          simp only [List.map_cons]
          rw [List.find?_cons_of_neg _ (by simpa using fun h : f0.id = f.id => hne h.symm)]
          have hrec := ih hndrest f hmem'
          unfold graphGet mapGet? at hrec
          exact hrec

/-- Looking a member field up in the built graph yields exactly its
extracted dependency list (the empty list when it has none). -/
lemma graphGet_buildDependencyGraph (fields : List Field)
    (hnd : (fields.map (fun f => f.id)).Nodup) (f : Field) (hmem : f ∈ fields) :
    graphGet (buildDependencyGraph fields) f.id = extractFieldDependencies f := by
  rw [buildDependencyGraph_eq fields hnd]
  exact graphGet_filterMap fields hnd f hmem

lemma resolveFieldDependencies_ok {fields : List Field} {g : Graph}
    (h : resolveFieldDependencies fields = .ok g) :
    g = buildDependencyGraph fields := by
  simp only [resolveFieldDependencies] at h
  cases hv : validateDependencyGraph (buildDependencyGraph fields) with
  | some k => rw [hv] at h; exact absurd h (by simp)
  | none => rw [hv] at h; exact (Except.ok.inj h).symm

lemma scenarioB_resolve :
    resolveFieldDependencies scenarioBFields = .ok [("b", ["a"])] := by
  have hnone : validateDependencyGraph (buildDependencyGraph scenarioBFields) = none :=
    validateDependencyGraph_eq_none_iff.mpr scenarioB_not_cyclic
  simp only [resolveFieldDependencies]
  rw [hnone]
  rw [scenarioB_graph_eq]

/-- C6: on a structurally valid schema, the resolver's returned graph maps
each field id to the deduplicated union of the field ids referenced by its
five conditional-rule lists and the dynamic-option dependency declarations,
and only fields with a non-empty dependency list appear as keys; on the
scenario-B schema it returns `{b: ["a"]}`. -/
theorem C6_dependency_graph (s : FormSchema) (fields : List Field) (g : Graph)
    (hf : s.fields = some fields) (hv : (validate (some s)).isValid = true)
    (hres : resolveFieldDependencies fields = .ok g) :
    (∀ f ∈ fields, ∀ x, x ∈ graphGet g f.id ↔
        ((x ≠ "" ∧ ∃ r ∈ extractFieldConditionalRules f, r.field = x) ∨
          x ∈ dynamicOptionDependencies f)) ∧
    (∀ f ∈ fields, (graphGet g f.id).Nodup) ∧
    mapKeys g = (fields.filter
      (fun f => !(extractFieldDependencies f).isEmpty)).map (fun f => f.id) ∧
    resolveFieldDependencies scenarioBFields = .ok [("b", ["a"])] := by
  obtain ⟨-, hnd⟩ := validate_isValid_ids s fields hf hv
  have hg : g = buildDependencyGraph fields := resolveFieldDependencies_ok hres
  subst hg
  refine ⟨?_, ?_, ?_, scenarioB_resolve⟩
  · intro f hmem x
    rw [graphGet_buildDependencyGraph fields hnd f hmem]
    exact extractFieldDependencies_mem f x
  · intro f hmem
    rw [graphGet_buildDependencyGraph fields hnd f hmem]
    exact extractFieldDependencies_nodup f
  · rw [buildDependencyGraph_eq fields hnd]
    unfold mapKeys
    rw [List.map_map]
    rfl

/-- C6 (witness): the dependency-graph theorem applied to scenario B. -/
theorem C6_dependency_graph_witness :
    (∀ x, x ∈ graphGet [("b", ["a"])] depFieldB.id ↔
      ((x ≠ "" ∧ ∃ r ∈ extractFieldConditionalRules depFieldB, r.field = x) ∨
        x ∈ dynamicOptionDependencies depFieldB)) ∧
    resolveFieldDependencies scenarioBFields = .ok [("b", ["a"])] := by
  obtain ⟨h1, -, -, h4⟩ := C6_dependency_graph scenarioBSchema scenarioBFields
    [("b", ["a"])] rfl rfl scenarioB_resolve
  exact ⟨h1 depFieldB (by simp [scenarioBFields]), h4⟩

/-! ### Claim C7 -/

/-- `buildFieldValidationSchema` in terms of the selected base rule. -/
lemma buildFieldValidationSchema_eq (f : Field) :
    buildFieldValidationSchema f =
      (if f.required then
        match fieldBaseSchema f with
        | .zString checks => .zString (checks ++ [(1, "This field is required")])
        | s => s
      else .zOptional (fieldBaseSchema f)) := by
  unfold buildFieldValidationSchema fieldBaseSchema
  cases f.validation with
  | none => rfl
  | some v =>
      cases v.schema with
      | none => rfl
      | some s => rfl

lemma zAny_accepts (v : Value) : ZodSchema.zAny.accepts v = true := by
  cases v <;> rfl

lemma accepts_zOptional (s : ZodSchema) (v : Value) :
    (ZodSchema.zOptional s).accepts v = true ↔
      (v = .absent ∨ s.accepts v = true) := by
  cases v <;> simp [ZodSchema.accepts]

lemma accepts_zString_nil (v : Value) :
    (ZodSchema.zString []).accepts v = true ↔ ∃ s, v = .str s := by
  cases v <;> simp [ZodSchema.accepts]

lemma accepts_zNumber (v : Value) :
    ZodSchema.zNumber.accepts v = true ↔ ∃ n, v = .num n := by
  cases v <;> simp [ZodSchema.accepts]

lemma accepts_zBoolean (v : Value) :
    ZodSchema.zBoolean.accepts v = true ↔ ∃ b, v = .bool b := by
  cases v <;> simp [ZodSchema.accepts]

lemma accepts_zDate (v : Value) :
    ZodSchema.zDate.accepts v = true ↔ v = .date := by
  cases v <;> simp [ZodSchema.accepts]

lemma accepts_zArray_str (v : Value) :
    (ZodSchema.zArray (.zString [])).accepts v = true ↔
      ∃ xs, v = .list xs ∧ ∀ x ∈ xs, ∃ s, x = .str s := by
  cases v <;> simp [ZodSchema.accepts]
  rename_i xs
  constructor
  · intro h x hx
    exact (accepts_zString_nil x).mp (h x hx)
  · intro h x hx
    exact (accepts_zString_nil x).mpr (h x hx)

lemma accepts_zArray_any (v : Value) :
    (ZodSchema.zArray .zAny).accepts v = true ↔ ∃ xs, v = .list xs := by
  cases v <;> simp [ZodSchema.accepts, zAny_accepts]

lemma accepts_zRecord_any (v : Value) :
    (ZodSchema.zRecord .zAny).accepts v = true ↔ ∃ fs, v = .record fs := by
  cases v <;> simp [ZodSchema.accepts, zAny_accepts]

/-- C7: the validation-schema compiler selects a declared explicit rule
verbatim as the base and otherwise derives the base from the field's type
(text-like accepts exactly strings; number/slider/rating exactly numbers;
checkbox/switch exactly booleans; date-like exactly dates;
multiselect/array exactly lists; object exactly records; file/custom is
unconstrained); a required field whose base is a string rule is tightened
with a minimum-length-1 check carrying the message "This field is
required" (so the empty string is rejected), a required field with a
non-string base keeps its base rule, and a non-required field's rule is
widened to also accept absence. -/
theorem C7_validation_compiler (f : Field) :
    (∀ fv sch, f.validation = some fv → fv.schema = some sch →
      fieldBaseSchema f = sch) ∧
    ((f.validation.bind (fun fv => fv.schema)) = none →
      fieldBaseSchema f = getBaseSchemaForFieldType f) ∧
    ((f.type_ = "text" ∨ f.type_ = "password" ∨ f.type_ = "email" ∨
        f.type_ = "textarea" ∨ f.type_ = "select") →
      ∀ v, (getBaseSchemaForFieldType f).accepts v = true ↔ ∃ s, v = .str s) ∧
    ((f.type_ = "number" ∨ f.type_ = "slider" ∨ f.type_ = "rating") →
      ∀ v, (getBaseSchemaForFieldType f).accepts v = true ↔ ∃ n, v = .num n) ∧
    ((f.type_ = "checkbox" ∨ f.type_ = "switch") →
      ∀ v, (getBaseSchemaForFieldType f).accepts v = true ↔ ∃ b, v = .bool b) ∧
    ((f.type_ = "date" ∨ f.type_ = "time" ∨ f.type_ = "datetime") →
      ∀ v, (getBaseSchemaForFieldType f).accepts v = true ↔ v = .date) ∧
    (f.type_ = "multiselect" →
      ∀ v, (getBaseSchemaForFieldType f).accepts v = true ↔
        ∃ xs, v = .list xs ∧ ∀ x ∈ xs, ∃ s, x = .str s) ∧
    (f.type_ = "array" →
      ∀ v, (getBaseSchemaForFieldType f).accepts v = true ↔ ∃ xs, v = .list xs) ∧
    (f.type_ = "object" →
      ∀ v, (getBaseSchemaForFieldType f).accepts v = true ↔ ∃ fs, v = .record fs) ∧
    ((f.type_ = "file" ∨ f.type_ = "custom") →
      ∀ v, (getBaseSchemaForFieldType f).accepts v = true) ∧
    (f.required = true → ∀ checks, fieldBaseSchema f = .zString checks →
      buildFieldValidationSchema f =
        .zString (checks ++ [(1, "This field is required")]) ∧
      (buildFieldValidationSchema f).accepts (.str "") = false) ∧
    (f.required = true → (∀ checks, fieldBaseSchema f ≠ .zString checks) →
      buildFieldValidationSchema f = fieldBaseSchema f) ∧
    (f.required = false →
      buildFieldValidationSchema f = .zOptional (fieldBaseSchema f) ∧
      ∀ v, ((buildFieldValidationSchema f).accepts v = true ↔
        (v = .absent ∨ (fieldBaseSchema f).accepts v = true))) := by
  refine ⟨?_, ?_, ?_, ?_, ?_, ?_, ?_, ?_, ?_, ?_, ?_, ?_, ?_⟩
  · intro fv sch h1 h2
    simp only [fieldBaseSchema, h1, h2]
  · intro h
    unfold fieldBaseSchema
    cases h1 : f.validation with
    | none => rfl
    | some fv =>
        cases h2 : fv.schema with
        | none => simp [h2]
        | some sch => rw [h1] at h; simp [h2] at h
  · rintro (h | h | h | h | h) v <;>
      simp only [getBaseSchemaForFieldType, h] <;>
      exact accepts_zString_nil v
  · rintro (h | h | h) v <;>
      simp only [getBaseSchemaForFieldType, h] <;>
      exact accepts_zNumber v
  · rintro (h | h) v <;>
      simp only [getBaseSchemaForFieldType, h] <;>
      exact accepts_zBoolean v
  · rintro (h | h | h) v <;>
      simp only [getBaseSchemaForFieldType, h] <;>
      exact accepts_zDate v
  · intro h v
    simp only [getBaseSchemaForFieldType, h]
    exact accepts_zArray_str v
  · intro h v
    simp only [getBaseSchemaForFieldType, h]
    exact accepts_zArray_any v
  · intro h v
    simp only [getBaseSchemaForFieldType, h]
    exact accepts_zRecord_any v
  · rintro (h | h) v <;>
      simp only [getBaseSchemaForFieldType, h] <;>
      exact zAny_accepts v
  · intro hreq checks hbs
    have hb : buildFieldValidationSchema f =
        .zString (checks ++ [(1, "This field is required")]) := by
      rw [buildFieldValidationSchema_eq, hreq, if_pos rfl, hbs]
    refine ⟨hb, ?_⟩
    rw [hb]
    simp [ZodSchema.accepts]
  · intro hreq hns
    rw [buildFieldValidationSchema_eq, hreq, if_pos rfl]
    cases hbs : fieldBaseSchema f with
    | zString checks => exact absurd hbs (hns checks)
    | zNumber => rfl
    | zBoolean => rfl
    | zDate => rfl
    | zArray e => rfl
    | zRecord e => rfl
    | zAny => rfl
    | zOptional s => rfl
  · intro hreq
    rw [buildFieldValidationSchema_eq, hreq]
    simp only [Bool.false_eq_true, if_false]
    exact ⟨trivial, fun v => accepts_zOptional _ v⟩

/-- C7 (witness): the compiler theorem at the required text field of
scenario A (string base tightened with the required message and rejecting
the empty string) and at a non-required text field (absence accepted). -/
theorem C7_validation_compiler_witness :
    (buildFieldValidationSchema nameField =
      .zString [(1, "This field is required")] ∧
      (buildFieldValidationSchema nameField).accepts (.str "") = false) ∧
    ((buildFieldValidationSchema plainFieldA).accepts .absent = true) := by
  constructor
  · have h := (C7_validation_compiler nameField).2.2.2.2.2.2.2.2.2.2.1
      rfl [] rfl
    simpa using h
  · have h := (C7_validation_compiler plainFieldA).2.2.2.2.2.2.2.2.2.2.2.2 rfl
    exact (h.2 .absent).mpr (Or.inl rfl)

end Teleprompta
